import Mathlib

/-!
Shallow embedding of the protsdb durable-ingestion core: the `wal` package
(segment store + record framing) from `src/head/head.go`, and the WAL-integrated
`Head` block from `src/README.md`.  Go machine integers are modelled as
`Nat`/`Int`; byte slices as `List Nat`; fallible calls carry an explicit
success oracle where a claim needs the failure path.
-/

namespace Protsdb

/-- Go `byte(x)` conversion: truncation to 8 bits. -/
def byteOf (n : Nat) : Nat := n % 256

/-- `binary.BigEndian.PutUint64`: 8 bytes, most significant first. -/
def be64 (n : Nat) : List Nat :=
  [byteOf (n >>> 56), byteOf (n >>> 48), byteOf (n >>> 40), byteOf (n >>> 32),
   byteOf (n >>> 24), byteOf (n >>> 16), byteOf (n >>> 8), byteOf n]

/-- `binary.BigEndian.PutUint32`: 4 bytes, most significant first. -/
def be32 (n : Nat) : List Nat :=
  [byteOf (n >>> 24), byteOf (n >>> 16), byteOf (n >>> 8), byteOf n]

/-- Big-endian value of a byte list (`binary.BigEndian.Uint64`/`Uint32`). -/
def beVal (bs : List Nat) : Nat := bs.foldl (fun a b => a * 256 + byteOf b) 0

/-- Reversed IEEE polynomial used by `hash/crc32.ChecksumIEEE`. -/
def crcPoly : Nat := 0xEDB88320

/-- One bit step of the reflected CRC32 computation. -/
def crcStep (c : Nat) : Nat := if c % 2 = 1 then (c >>> 1) ^^^ crcPoly else c >>> 1

/-- Fold one input byte into the running CRC (8 bit steps). -/
def crcByte (c b : Nat) : Nat := crcStep^[8] (c ^^^ byteOf b)

/-- `crc32.ChecksumIEEE`: init `0xFFFFFFFF`, per-byte update, final complement. -/
def crc32 (data : List Nat) : Nat := (data.foldl crcByte 0xFFFFFFFF) ^^^ 0xFFFFFFFF

/-- Fuel-driven worker for `uvarint`; the fuel only forces structural
recursion (any fuel at least the argument gives the mathematical value). -/
def uvarintGo : Nat → Nat → List Nat
  | 0, n => [n % 128]
  | fuel + 1, n =>
    if n < 128 then [n] else (n % 128 + 128) :: uvarintGo fuel (n / 128)

/-- `binary.AppendUvarint`: little-endian base-128 groups, high bit marks more. -/
def uvarint (n : Nat) : List Nat := uvarintGo n n

/-- Zigzag mapping of a signed value, as in `binary.AppendVarint`. -/
def zigzag (x : Int) : Nat := if 0 ≤ x then 2 * x.toNat else 2 * (-x).toNat - 1

/-- `binary.AppendVarint`: zigzag then unsigned varint. -/
def varint (x : Int) : List Nat := uvarint (zigzag x)

/-- A label: name and value, as their byte sequences (Go strings). -/
abbrev LabelPair := List Nat × List Nat

/-- `labels.Labels`: a list of name/value pairs. -/
abbrev Labels := List LabelPair

/-- The per-label encoding used by `WAL.LogSeries` / `WAL.LogSample`:
varint-length-prefixed name, then varint-length-prefixed value. -/
def encodePair (p : LabelPair) : List Nat :=
  varint (p.1.length : Int) ++ p.1 ++ varint (p.2.length : Int) ++ p.2

/-- The label-set encoding of `WAL.LogSeries` / `WAL.LogSample`:
varint pair count, then each pair. -/
def encodeLabels (l : Labels) : List Nat :=
  varint (l.length : Int) ++ (l.map encodePair).flatten

/-- Modelled from the spec: `labels.Equal` from the external prometheus
library; two label sets are equal iff they contain the same pairs regardless
of the collection's internal order. -/
def labelsEqual (a b : Labels) : Bool := decide (a.Perm b)

/-- `prompb.Sample`.  The float64 value is carried as its IEEE-754 bit
pattern (`math.Float64bits value`), the only view the core ever takes of it. -/
structure Sample where
  timestamp : Int
  valueBits : Nat
deriving DecidableEq, Repr

/-- Go `uint64(x)` of an `int64`: two's-complement reinterpretation. -/
def toUInt64 (x : Int) : Nat := (x % (18446744073709551616 : Int)).toNat

/-- Record type tags of the `wal` package. -/
def RecordSeries : Nat := 1

def RecordSamples : Nat := 2

def RecordCheckpoint : Nat := 3

/-- The on-disk frame written by `WAL.write`: 1-byte type tag, 8-byte
big-endian payload length, 4-byte big-endian CRC32 of the payload, payload. -/
def frame (typ : Nat) (data : List Nat) : List Nat :=
  [typ] ++ be64 data.length ++ be32 (crc32 data) ++ data

/-- Payload of a sample-batch record (`WAL.LogSample`): label-set encoding,
then 8-byte big-endian timestamp and 8-byte big-endian value bit pattern. -/
def samplePayload (l : Labels) (s : Sample) : List Nat :=
  encodeLabels l ++ be64 (toUInt64 s.timestamp) ++ be64 s.valueBits

/-- Segment lifecycle states (`SegmentActive`/`SegmentSealed`/`SegmentFlushed`). -/
inductive SegState
  | active
  | sealed
  | flushed
deriving DecidableEq, Repr

/-- A WAL `segment`: sequential id, current write offset, the bytes appended
to its file in this process, and its lifecycle state.  For a segment found on
disk at startup the offset starts at the file size and `data` records only
what this process appends. -/
structure Segment where
  id : Nat
  offset : Int
  data : List Nat
  state : SegState
deriving DecidableEq, Repr

/-- The `WAL` segment-store state: the segment table (Go keeps a map keyed by
id; ids are unique), the id of the `current` (active) segment, and the
configured segment byte capacity. -/
structure WAL where
  segments : List Segment
  currentId : Nat
  segmentSize : Int
deriving DecidableEq, Repr

/-- Look up the current segment in the table (`w.current` in Go). -/
def wFindCurrent (w : WAL) : Option Segment :=
  w.segments.find? (fun s => s.id == w.currentId)

/-- The current segment; Go guarantees one exists after `New`, so the
default is unreachable from any constructed state. -/
def wCurrent (w : WAL) : Segment :=
  (wFindCurrent w).getD ⟨w.currentId, 0, [], .active⟩

/-- `WAL.newSegment`: seal the current segment, install a fresh active one
with the given id, and make it current. -/
def walNewSegment (w : WAL) (id : Nat) : WAL :=
  { w with
    segments :=
      (w.segments.map fun s =>
        if s.id == w.currentId then { s with state := .sealed } else s)
        ++ [⟨id, 0, [], .active⟩],
    currentId := id }

/-- `WAL.write`: rotate first if the current offset has reached capacity,
then append the framed record and advance the offset by the bytes written. -/
def walWrite (w : WAL) (typ : Nat) (data : List Nat) : WAL :=
  let w1 := if w.segmentSize ≤ (wCurrent w).offset
    then walNewSegment w (w.currentId + 1) else w
  let bytes := frame typ data
  { w1 with
    segments := w1.segments.map fun s =>
      if s.id == w1.currentId then
        { s with offset := s.offset + (bytes.length : Int), data := s.data ++ bytes }
      else s }

/-- One step of `WAL.loadSegments` over a directory entry `(id, size)`:
the segment is created sealed; if its id exceeds the current one it becomes
the new active current and the old current is sealed. -/
def loadStep (acc : List Segment × Option Nat) (f : Nat × Int) :
    List Segment × Option Nat :=
  match acc.2 with
  | none => (acc.1 ++ [⟨f.1, f.2, [], .active⟩], some f.1)
  | some cid =>
    if cid < f.1 then
      ((acc.1.map fun s => if s.id == cid then { s with state := .sealed } else s)
        ++ [⟨f.1, f.2, [], .active⟩], some f.1)
    else (acc.1 ++ [⟨f.1, f.2, [], .sealed⟩], some cid)

/-- `wal.New`: scan the directory (entries come sorted by filename, hence by
id), load existing segments, and create segment 0 if none exist.  A zero
size selects the 128 MiB default. -/
def walNew (loaded : List (Nat × Int)) (size : Int) : WAL :=
  let sz := if size = 0 then 134217728 else size
  let acc := loaded.foldl loadStep ([], none)
  match acc.2 with
  | none => ⟨[⟨0, 0, [], .active⟩], 0, sz⟩
  | some cid => ⟨acc.1, cid, sz⟩

/-- `WAL.Checkpoint`, lock-free logical effect: append a checkpoint record,
then mark every segment with id strictly below the (possibly rotated)
current id as flushed.  NOTE: the Go code never completes this — `Checkpoint`
acquires `w.mtx` and then calls `w.write`, which re-acquires the same
non-reentrant `sync.Mutex`, so the call deadlocks; `walCheckpointL` below
models the locking and always yields no result.  This transformer is the
checkpoint effect the code intends (and the spec describes), and is used to
over-approximate the reachable state set. -/
def walCheckpoint (w : WAL) : WAL :=
  let w1 := walWrite w RecordCheckpoint []
  { w1 with
    segments := w1.segments.map fun s =>
      if s.id < w1.currentId then { s with state := .flushed } else s }

/-- `WAL.write` with the acquisition of `w.mtx` modelled: under sequential
execution, `Lock` on a `sync.Mutex` the caller already holds blocks forever,
yielding no result. -/
def walWriteL (locked : Bool) (w : WAL) (typ : Nat) (data : List Nat) :
    Option WAL :=
  if locked then none else some (walWrite w typ data)

/-- `WAL.Checkpoint` with its locking modelled: it acquires `w.mtx`, then
calls `w.write` while still holding it; that inner `Lock` never succeeds. -/
def walCheckpointL (locked : Bool) (w : WAL) : Option WAL :=
  if locked then none
  else
    match walWriteL true w RecordCheckpoint [] with
    | none => none
    | some w1 =>
      some { w1 with
        segments := w1.segments.map fun s =>
          if s.id < w1.currentId then { s with state := .flushed } else s }

/-- Ids of the flushed segments, in table order. -/
def flushedIds (w : WAL) : List Nat :=
  (w.segments.filter fun s => s.state == SegState.flushed).map (·.id)

/-- `WAL.Clean`: collect the flushed segment ids, sort ascending, keep the
most recent one, and delete the rest from the table. -/
def walClean (w : WAL) : WAL :=
  let toDelete := (List.insertionSort (· ≤ ·) (flushedIds w)).dropLast
  { w with segments := w.segments.filter fun s => !(toDelete.contains s.id) }

/-- `WAL.Clean` with its locking modelled: it acquires `w.mtx` once and
calls no other locking method, so it completes with `walClean`'s effect. -/
def walCleanL (locked : Bool) (w : WAL) : Option WAL :=
  if locked then none else some (walClean w)

/-- `memChunk`: span and samples of one in-memory chunk. -/
structure MemChunk where
  minTime : Int
  maxTime : Int
  samples : List Sample
deriving DecidableEq, Repr

/-- `memSeries`.  `prevChunks` is history the Go code drops on rotation (a
future compactor would consume the sealed chunk); recording it lets chunk
lifecycle claims be stated and does not affect any other behaviour. -/
structure MemSeries where
  ref : Nat
  lset : Labels
  chunk : MemChunk
  prevChunks : List MemChunk
deriving DecidableEq, Repr

/-- `Head` (the WAL-integrated version of `src/README.md`): the series map as
an association list keyed by reference, the reference counter, head-wide time
bounds, the chunk capacity, and the owned WAL.  `lastRef` is a Go `uint64`;
its wraparound after 2^64 creations is not modelled. -/
structure Head where
  series : List (Nat × MemSeries)
  lastRef : Nat
  minTime : Int
  maxTime : Int
  chunkSize : Int
  wal : WAL
deriving DecidableEq, Repr

def int64Max : Int := 9223372036854775807

def int64Min : Int := -9223372036854775808

/-- `NewHead`: empty series map, widest-possible empty time bounds, chunk
size defaulted to 120 when zero, WAL created with 128 MiB segments. -/
def hNew (chunkSize : Int) : Head :=
  let cs := if chunkSize = 0 then 120 else chunkSize
  ⟨[], 0, int64Max, int64Min, cs, walNew [] 134217728⟩

/-- `Head.getOrCreate`, success path: linear scan by label equality; on a
miss, allocate the next reference, insert the new series (empty chunk), and
log the series definition to the WAL.  Go iterates the map in unspecified
order; since the scan guards every insertion, no two stored series are
label-equal and the first match is the unique match, so a deterministic scan
is faithful. -/
def hGetOrCreate (h : Head) (l : Labels) : MemSeries × Head :=
  match h.series.find? (fun p => labelsEqual p.2.lset l) with
  | some p => (p.2, h)
  | none =>
    let ref := h.lastRef + 1
    let s : MemSeries := ⟨ref, l, ⟨0, 0, []⟩, []⟩
    (s, { h with
          series := h.series ++ [(ref, s)]
          lastRef := ref
          wal := walWrite h.wal RecordSeries (encodeLabels l) })

/-- `Head.getOrCreate` with an explicit oracle for the success of the
`wal.LogSeries` file write.  On WAL failure the Go code returns the error but
leaves the freshly inserted series in `h.series` (no rollback). -/
def hGetOrCreateE (h : Head) (l : Labels) (walOk : Bool) :
    Except Unit MemSeries × Head :=
  match h.series.find? (fun p => labelsEqual p.2.lset l) with
  | some p => (.ok p.2, h)
  | none =>
    let ref := h.lastRef + 1
    let s : MemSeries := ⟨ref, l, ⟨0, 0, []⟩, []⟩
    let h1 := { h with series := h.series ++ [(ref, s)], lastRef := ref }
    if walOk then
      (.ok s, { h1 with wal := walWrite h1.wal RecordSeries (encodeLabels l) })
    else (.error (), h1)

/-- `Head.Append`: log the sample to the WAL first, then resolve or create
the series, update head-wide bounds, rotate the chunk if it reached capacity,
and append the sample (writing the chunk's max time). -/
def hAppend (h : Head) (l : Labels) (smp : Sample) : Head :=
  let h1 := { h with wal := walWrite h.wal RecordSamples (samplePayload l smp) }
  let r := hGetOrCreate h1 l
  let s := r.1
  let h2 := r.2
  let mn := if smp.timestamp < h2.minTime then smp.timestamp else h2.minTime
  let mx := if h2.maxTime < smp.timestamp then smp.timestamp else h2.maxTime
  let s1 := if h2.chunkSize ≤ (s.chunk.samples.length : Int) then
      { s with
        chunk := ⟨smp.timestamp, smp.timestamp, []⟩
        prevChunks := s.prevChunks ++ [s.chunk] }
    else s
  let s2 := { s1 with chunk :=
    { s1.chunk with maxTime := smp.timestamp, samples := s1.chunk.samples ++ [smp] } }
  { h2 with
    minTime := mn
    maxTime := mx
    series := h2.series.map fun p => if p.2.ref == s.ref then (p.1, s2) else p }

/-- `Head.Series`: map lookup by reference. -/
def hSeries (h : Head) (r : Nat) : Option MemSeries :=
  (h.series.find? (fun p => p.1 == r)).map (·.2)

/-- Fuel-driven worker for `decodeRecords`; fuel at least the input length
gives the mathematical value. -/
def decodeRecordsGo : Nat → List Nat → Option (List (Nat × List Nat))
  | _, [] => some []
  | 0, _ :: _ => none
  | fuel + 1, bs =>
    if bs.length < 13 then none
    else
      let typ := bs.headD 0
      let len := beVal ((bs.drop 1).take 8)
      let crcField := beVal ((bs.drop 9).take 4)
      let rest := bs.drop 13
      if len ≤ rest.length ∧ crc32 (rest.take len) = crcField then
        (decodeRecordsGo fuel (rest.drop len)).map
          (fun rs => (typ, rest.take len) :: rs)
      else none

/-- A recovery reader for the record framing: parses `(type, payload)` pairs
and validates each record's CRC32 field against its payload, failing on any
mismatch or truncation. -/
def decodeRecords (bs : List Nat) : Option (List (Nat × List Nat)) :=
  decodeRecordsGo bs.length bs

/-- The label set `{__name__="cpu"}` of the spec's concrete scenario, as the
UTF-8 bytes of its one name/value pair. -/
def scenLabels : Labels := [([95, 95, 110, 97, 109, 101, 95, 95], [99, 112, 117])]

/-- IEEE-754 bit pattern of the float64 value 10.0. -/
def bits10 : Nat := 0x4024000000000000

/-- IEEE-754 bit pattern of the float64 value 20.0. -/
def bits20 : Nat := 0x4034000000000000

/-- IEEE-754 bit pattern of the float64 value 30.0. -/
def bits30 : Nat := 0x403E000000000000

/-- The head after the scenario's three appends with chunk capacity 2. -/
def scenHead : Head :=
  hAppend (hAppend (hAppend (hNew 2) scenLabels ⟨1, bits10⟩)
    scenLabels ⟨2, bits20⟩) scenLabels ⟨3, bits30⟩

/-- The WAL byte content the claim asserts: one series-definition record,
then the three sample-batch records. -/
def scenClaimedWal : List Nat :=
  frame RecordSeries (encodeLabels scenLabels) ++
  frame RecordSamples (samplePayload scenLabels ⟨1, bits10⟩) ++
  frame RecordSamples (samplePayload scenLabels ⟨2, bits20⟩) ++
  frame RecordSamples (samplePayload scenLabels ⟨3, bits30⟩)

/-- C1 (counterexample): in the concrete scenario (chunk capacity 2, appends
`(t=1,v=10)`, `(t=2,v=20)`, `(t=3,v=30)` to `{__name__="cpu"}`), the WAL does
NOT contain a series-definition record followed by the three sample-batch
records: `Head.Append` logs the sample before `getOrCreate` logs the series
definition, so the first record on disk is a sample-batch record. -/
theorem c1_wal_order_counterexample :
    (wCurrent scenHead.wal).data ≠ scenClaimedWal := by decide

set_option maxRecDepth 100000 in
/-- C1 (amended): the concrete scenario creates exactly one series reference,
leaves head `minTime = 1` and `maxTime = 3`, a first (rotated-out) chunk with
the samples at t=1 and t=2 and a current chunk with t=3 only, and a WAL whose
records are, in order: the sample-batch record for t=1, the series-definition
record, then the sample-batch records for t=2 and t=3 — each framed with a
correct CRC32 of its payload (the CRC-validating reader accepts all four). -/
theorem c1_scenario_amended :
    scenHead.lastRef = 1 ∧
    hSeries scenHead 1 =
      some ⟨1, scenLabels, ⟨3, 3, [⟨3, bits30⟩]⟩, [⟨0, 2, [⟨1, bits10⟩, ⟨2, bits20⟩]⟩]⟩ ∧
    scenHead.series.length = 1 ∧
    scenHead.minTime = 1 ∧ scenHead.maxTime = 3 ∧
    (wCurrent scenHead.wal).data =
      frame RecordSamples (samplePayload scenLabels ⟨1, bits10⟩) ++
      frame RecordSeries (encodeLabels scenLabels) ++
      frame RecordSamples (samplePayload scenLabels ⟨2, bits20⟩) ++
      frame RecordSamples (samplePayload scenLabels ⟨3, bits30⟩) ∧
    decodeRecords (wCurrent scenHead.wal).data =
      some [(RecordSamples, samplePayload scenLabels ⟨1, bits10⟩),
            (RecordSeries, encodeLabels scenLabels),
            (RecordSamples, samplePayload scenLabels ⟨2, bits20⟩),
            (RecordSamples, samplePayload scenLabels ⟨3, bits30⟩)] := by decide

set_option maxRecDepth 100000 in
/-- C2 (code bug): when the WAL append of the series-definition record fails
inside `getOrCreate` (on a fresh capacity-2 head with labels
`{__name__="cpu"}`), the Go code returns the error but does NOT roll back
the map insertion at src/README.md:120, so the half-registered series stays
reachable both by later lookups and by later appends: (i) the call errors,
yet (ii) the series (reference 1) stays in `h.series` and is returned by
`Head.Series 1`; (iii) a later `getOrCreate` with the same label set finds
and reuses it instead of creating a fresh one; (iv) a later `Append` with
the same label set likewise lands its sample in the half-registered series,
and (v) creates no second series (`lastRef` stays 1). -/
theorem c2_no_rollback_code_bug :
    (hGetOrCreateE (hNew 2) scenLabels false).1.toOption = none ∧
    hSeries (hGetOrCreateE (hNew 2) scenLabels false).2 1 =
      some ⟨1, scenLabels, ⟨0, 0, []⟩, []⟩ ∧
    (hGetOrCreateE (hGetOrCreateE (hNew 2) scenLabels false).2 scenLabels true).1.toOption =
      some ⟨1, scenLabels, ⟨0, 0, []⟩, []⟩ ∧
    hSeries (hAppend (hGetOrCreateE (hNew 2) scenLabels false).2 scenLabels ⟨7, bits10⟩) 1 =
      some ⟨1, scenLabels, ⟨0, 7, [⟨7, bits10⟩]⟩, []⟩ ∧
    (hAppend (hGetOrCreateE (hNew 2) scenLabels false).2 scenLabels ⟨7, bits10⟩).lastRef =
      1 := by decide

/-- C4 (code bug): a series is created with `chunk = &memChunk{}`, i.e.
`minTime = 0`, and `Append` never initialises `minTime` for that initial
chunk (only rotation does): after appending a first sample at t=5 the chunk
holds that sample and `maxTime = 5`, but `minTime` is 0, not 5, contradicting
the field's own comment `minTime int64 // First sample timestamp`. -/
theorem c4_initial_chunk_min_time_code_bug :
    hSeries (hAppend (hNew 2) scenLabels ⟨5, bits10⟩) 1 =
      some ⟨1, scenLabels, ⟨0, 5, [⟨5, bits10⟩]⟩, []⟩ := by decide

/-- Label-set equality only depends on the pairs, not their order: testing
against either of two permuted label sets gives the same answer. -/
theorem labelsEqual_congr (l1 l2 : Labels) (hp : l1.Perm l2) (a : Labels) :
    labelsEqual a l2 = labelsEqual a l1 := by
  simp only [labelsEqual]
  exact decide_eq_decide.mpr ⟨fun hx => hx.trans hp.symm, fun hx => hx.trans hp⟩

/-- C3: for any head state, calling `getOrCreate` with a label set and then
with any permutation of the same pairs returns the very same series (hence
the same reference) and leaves the head unchanged on the second call: no
second series is created. -/
theorem c3_permuted_labels_same_series (h : Head) (l1 l2 : Labels)
    (hp : l1.Perm l2) :
    hGetOrCreate (hGetOrCreate h l1).2 l2 =
      ((hGetOrCreate h l1).1, (hGetOrCreate h l1).2) := by
  have hfun : (fun p : Nat × MemSeries => labelsEqual p.2.lset l2)
      = (fun p => labelsEqual p.2.lset l1) := by
    funext p
    exact labelsEqual_congr l1 l2 hp p.2.lset
  cases e : h.series.find? (fun p => labelsEqual p.2.lset l1) with
  | some p =>
    simp [hGetOrCreate, e, hfun]
  | none =>
    simp only [hGetOrCreate, e, hfun]
    rw [List.find?_append, e]
    simp [labelsEqual, List.Perm.refl]

/-- C3 witness: two-pair label sets in opposite construction orders resolve
to one and the same series on a fresh head. -/
theorem c3_permuted_labels_witness :
    ([(([1], [2]) : LabelPair), ([3], [4])] : Labels).Perm [([3], [4]), ([1], [2])] ∧
    hGetOrCreate (hGetOrCreate (hNew 2) [([1], [2]), ([3], [4])]).2
        [([3], [4]), ([1], [2])] =
      ((hGetOrCreate (hNew 2) [([1], [2]), ([3], [4])]).1,
       (hGetOrCreate (hNew 2) [([1], [2]), ([3], [4])]).2) :=
  ⟨by decide, c3_permuted_labels_same_series (hNew 2) _ _ (by decide)⟩

/-- Fold a list of samples into the head with `Head.Append`, one call each. -/
def appendMany (h : Head) (l : Labels) (ss : List Sample) : Head :=
  ss.foldl (fun h s => hAppend h l s) h

/-- Timestamp of the last sample of a list, `d` when the list is empty. -/
def lastTs (d : Int) (ss : List Sample) : Int :=
  ss.foldl (fun _ s => s.timestamp) d

theorem lastTs_append_last (d : Int) (zs : List Sample) (x : Sample) :
    lastTs d (zs ++ [x]) = x.timestamp := by
  simp [lastTs, List.foldl_append]

theorem labelsEqual_refl (l : Labels) : labelsEqual l l = true := by
  simp [labelsEqual, List.Perm.refl]

/-- Appending to an empty head creates series 1 with the sample in a chunk
whose `minTime` is the zero value 0 and whose `maxTime` is the timestamp. -/
theorem hAppend_empty (h : Head) (l : Labels) (smp : Sample)
    (hs : h.series = []) (hcs : 0 < h.chunkSize) :
    (hAppend h l smp).series =
      [(h.lastRef + 1, ⟨h.lastRef + 1, l, ⟨0, smp.timestamp, [smp]⟩, []⟩)] ∧
    (hAppend h l smp).chunkSize = h.chunkSize ∧
    (hAppend h l smp).lastRef = h.lastRef + 1 := by
  simp [hAppend, hGetOrCreate, hs, not_le.mpr hcs]

/-- Appending to a one-series head whose chunk is below capacity grows that
chunk in place and updates its `maxTime`. -/
theorem hAppend_single_nofull (h : Head) (l : Labels) (k r : Nat) (ls : Labels)
    (ch : MemChunk) (prev : List MemChunk) (smp : Sample)
    (hs : h.series = [(k, ⟨r, ls, ch, prev⟩)])
    (heq : labelsEqual ls l = true)
    (hlen : (ch.samples.length : Int) < h.chunkSize) :
    (hAppend h l smp).series =
      [(k, ⟨r, ls, ⟨ch.minTime, smp.timestamp, ch.samples ++ [smp]⟩, prev⟩)] ∧
    (hAppend h l smp).chunkSize = h.chunkSize ∧
    (hAppend h l smp).lastRef = h.lastRef := by
  simp [hAppend, hGetOrCreate, hs, heq, not_le.mpr hlen]

/-- Appending to a one-series head whose chunk has reached capacity rotates:
the old chunk is retired and a fresh chunk `[min=max=t]` takes the sample. -/
theorem hAppend_single_full (h : Head) (l : Labels) (k r : Nat) (ls : Labels)
    (ch : MemChunk) (prev : List MemChunk) (smp : Sample)
    (hs : h.series = [(k, ⟨r, ls, ch, prev⟩)])
    (heq : labelsEqual ls l = true)
    (hlen : h.chunkSize ≤ (ch.samples.length : Int)) :
    (hAppend h l smp).series =
      [(k, ⟨r, ls, ⟨smp.timestamp, smp.timestamp, [smp]⟩, prev ++ [ch]⟩)] ∧
    (hAppend h l smp).chunkSize = h.chunkSize := by
  simp [hAppend, hGetOrCreate, hs, heq, hlen]

/-- Appending a run of samples that fits in the remaining chunk capacity
appends them all to the same chunk, tracking the last timestamp as max. -/
theorem appendMany_fill (l : Labels) (ss : List Sample) :
    ∀ (h : Head) (k r : Nat) (ls : Labels) (ch : MemChunk) (prev : List MemChunk),
    h.series = [(k, ⟨r, ls, ch, prev⟩)] →
    labelsEqual ls l = true →
    (ch.samples.length : Int) + ss.length ≤ h.chunkSize →
    (appendMany h l ss).series =
      [(k, ⟨r, ls, ⟨ch.minTime, lastTs ch.maxTime ss, ch.samples ++ ss⟩, prev⟩)] ∧
    (appendMany h l ss).chunkSize = h.chunkSize := by
  induction ss with
  | nil =>
    intro h k r ls ch prev hs heq hlen
    simpa [appendMany, lastTs] using hs
  | cons s tl ih =>
    intro h k r ls ch prev hs heq hlen
    have hstep := hAppend_single_nofull h l k r ls ch prev s hs heq (by
      simp only [List.length_cons] at hlen
      push_cast at hlen ⊢
      omega)
    have hrec := ih (hAppend h l s) k r ls
      ⟨ch.minTime, s.timestamp, ch.samples ++ [s]⟩ prev hstep.1 heq (by
      rw [hstep.2.1]
      simp only [List.length_append, List.length_cons, List.length_nil] at hlen ⊢
      push_cast at hlen ⊢
      omega)
    have hsplit : appendMany h l (s :: tl) = appendMany (hAppend h l s) l tl := rfl
    refine ⟨?_, ?_⟩
    · rw [hsplit, hrec.1]
      simp [lastTs, List.append_assoc]
    · rw [hsplit, hrec.2, hstep.2.1]

/-- C5: appending `chunkCapacity + 1` samples (`pre ++ [x]` of length equal
to the capacity, then `y`) to one series of a fresh head produces exactly two
chunks: the retired first chunk holds exactly the first `chunkCapacity`
samples with `maxTime = x.timestamp` (the last sample appended to it), and
the current chunk holds only `y` with `minTime = maxTime = y.timestamp`. -/
theorem c5_chunk_rotation (c : Int) (l : Labels) (pre : List Sample) (x y : Sample)
    (hc : 1 ≤ c) (hlen : (pre.length : Int) + 1 = c) :
    (appendMany (hNew c) l (pre ++ [x, y])).series =
      [(1, ⟨1, l, ⟨y.timestamp, y.timestamp, [y]⟩, [⟨0, x.timestamp, pre ++ [x]⟩]⟩)] := by
  have hnz : ¬ c = 0 := by omega
  have hh : (hNew c).series = [] := by simp [hNew]
  have hcs : (hNew c).chunkSize = c := by simp [hNew, hnz]
  have hlr : (hNew c).lastRef = 0 := by simp [hNew]
  have hphase1 : (appendMany (hNew c) l (pre ++ [x])).series =
      [(1, ⟨1, l, ⟨0, x.timestamp, pre ++ [x]⟩, []⟩)] ∧
      (appendMany (hNew c) l (pre ++ [x])).chunkSize = c := by
    cases pre with
    | nil =>
      have h1 := hAppend_empty (hNew c) l x hh (by omega)
      constructor
      · show (hAppend (hNew c) l x).series = _
        rw [h1.1, hlr]
        simp
      · show (hAppend (hNew c) l x).chunkSize = _
        rw [h1.2.1, hcs]
    | cons p ps =>
      have h1 := hAppend_empty (hNew c) l p hh (by omega)
      have hser : (hAppend (hNew c) l p).series =
          [(1, ⟨1, l, ⟨0, p.timestamp, [p]⟩, []⟩)] := by
        rw [h1.1, hlr]
      have hcs1 : (hAppend (hNew c) l p).chunkSize = c := by rw [h1.2.1, hcs]
      have hfill := appendMany_fill l (ps ++ [x]) (hAppend (hNew c) l p) 1 1 l
        ⟨0, p.timestamp, [p]⟩ [] hser (labelsEqual_refl l) (by
          rw [hcs1]
          simp only [List.length_append, List.length_cons, List.length_nil] at hlen ⊢
          push_cast at hlen ⊢
          omega)
      have hstep : appendMany (hNew c) l ((p :: ps) ++ [x]) =
          appendMany (hAppend (hNew c) l p) l (ps ++ [x]) := rfl
      refine ⟨?_, by rw [hstep, hfill.2, hcs1]⟩
      rw [hstep, hfill.1]
      simp [lastTs_append_last]
  have hsplit : appendMany (hNew c) l (pre ++ [x, y]) =
      hAppend (appendMany (hNew c) l (pre ++ [x])) l y := by
    have : pre ++ [x, y] = (pre ++ [x]) ++ [y] := by simp
    rw [this]
    simp [appendMany, List.foldl_append]
  rw [hsplit]
  have hfull := hAppend_single_full (appendMany (hNew c) l (pre ++ [x])) l 1 1 l
    ⟨0, x.timestamp, pre ++ [x]⟩ [] y hphase1.1 (labelsEqual_refl l) (by
      rw [hphase1.2]
      simp only [List.length_append, List.length_cons, List.length_nil]
      push_cast at hlen ⊢
      omega)
  rw [hfull.1]
  simp

/-- C5 witness: capacity 2 with three concrete samples gives exactly the two
chunks the theorem describes. -/
theorem c5_chunk_rotation_witness :
    (1 : Int) ≤ 2 ∧ (([⟨1, bits10⟩] : List Sample).length : Int) + 1 = 2 ∧
    (appendMany (hNew 2) scenLabels ([⟨1, bits10⟩] ++ [⟨2, bits20⟩, ⟨3, bits30⟩])).series =
      [(1, ⟨1, scenLabels, ⟨3, 3, [⟨3, bits30⟩]⟩,
        [⟨0, 2, [⟨1, bits10⟩] ++ [⟨2, bits20⟩]⟩]⟩)] :=
  ⟨by decide, by decide,
    c5_chunk_rotation 2 scenLabels [⟨1, bits10⟩] ⟨2, bits20⟩ ⟨3, bits30⟩
      (by decide) (by decide)⟩

/-- Filtering on a key predicate commutes with projecting the keys. -/
theorem map_filter_key (L : List Segment) (p : Segment → Bool) (q : Nat → Bool) :
    ((L.filter fun s => q s.id).filter p).map (·.id)
      = ((L.filter p).map (·.id)).filter q := by
  rw [List.filter_map, List.filter_comm]
  rfl

theorem filter_flushed_map_comm (L : List Segment) (ys : List Nat) :
    ((L.filter fun s => !(ys.contains s.id)).filter
        fun s => s.state == SegState.flushed).map (·.id) =
    ((L.filter fun s => s.state == SegState.flushed).map (·.id)).filter
        fun i => !(ys.contains i) :=
  map_filter_key L (fun s => s.state == SegState.flushed) (fun i => !(ys.contains i))

/-- When nothing is slated for deletion, `Clean` leaves the WAL unchanged. -/
theorem walClean_toDelete_nil (w : WAL)
    (h : (List.insertionSort (· ≤ ·) (flushedIds w)).dropLast = []) :
    walClean w = w := by
  simp only [walClean, h]
  have he : (w.segments.filter fun s => !(List.contains ([] : List Nat) s.id))
      = w.segments := List.filter_eq_self.mpr (fun a _ => rfl)
  rw [he]

theorem flushedIds_nodup (w : WAL) (hnd : (w.segments.map (·.id)).Nodup) :
    (flushedIds w).Nodup := by
  unfold flushedIds
  apply hnd.sublist
  exact List.Sublist.map _ (List.filter_sublist w.segments)

/-- After one `Clean`, the only flushed segment left is the one with the
highest flushed id. -/
theorem flushedIds_walClean (w : WAL) (hnd : (w.segments.map (·.id)).Nodup)
    (ys : List Nat) (m : Nat)
    (hdec : List.insertionSort (· ≤ ·) (flushedIds w) = ys ++ [m]) :
    flushedIds (walClean w) = [m] := by
  have hperm : List.Perm (ys ++ [m]) (flushedIds w) :=
    hdec ▸ List.perm_insertionSort _ _
  have hnd2 : (ys ++ [m]).Nodup := (hperm.symm).nodup (flushedIds_nodup w hnd)
  have hmys : m ∉ ys := by
    have := (List.nodup_append.mp hnd2).2.2
    intro hin
    exact this hin (by simp)
  have hcl : flushedIds (walClean w) =
      (flushedIds w).filter fun i => !(ys.contains i) := by
    show ((w.segments.filter _).filter _).map (·.id) = _
    rw [hdec, List.dropLast_concat]
    exact filter_flushed_map_comm w.segments ys
  rw [hcl]
  have hp2 : List.Perm ((flushedIds w).filter fun i => !(ys.contains i))
      (((ys ++ [m]).filter fun i => !(ys.contains i))) :=
    (hperm.symm).filter _
  have hys : (ys.filter fun i => !(ys.contains i)) = [] :=
    List.filter_eq_nil_iff.mpr (by intro a ha; simp [ha])
  have hfm : ((ys ++ [m]).filter fun i => !(ys.contains i)) = [m] := by
    rw [List.filter_append, hys]
    simp [hmys]
  rw [hfm] at hp2
  exact List.perm_singleton.mp hp2

theorem walClean_idem (w : WAL) (hnd : (w.segments.map (·.id)).Nodup) :
    walClean (walClean w) = walClean w := by
  rcases List.eq_nil_or_concat (List.insertionSort (· ≤ ·) (flushedIds w)) with
    hnil | ⟨ys, m, hdec⟩
  · rw [walClean_toDelete_nil w (by rw [hnil]; rfl)]
    exact walClean_toDelete_nil w (by rw [hnil]; rfl)
  · rw [List.concat_eq_append] at hdec
    have hfl := flushedIds_walClean w hnd ys m hdec
    exact walClean_toDelete_nil _ (by rw [hfl]; rfl)

theorem walClean_keeps_max_flushed (w : WAL)
    (hnd : (w.segments.map (·.id)).Nodup)
    (s : Segment) (hs : s ∈ w.segments) (_hf : s.state = SegState.flushed)
    (hmax : ∀ t ∈ w.segments, t.state = SegState.flushed → t.id ≤ s.id) :
    s ∈ (walClean w).segments := by
  rcases List.eq_nil_or_concat (List.insertionSort (· ≤ ·) (flushedIds w)) with
    hnil | ⟨ys, m, hdec⟩
  · rw [walClean_toDelete_nil w (by rw [hnil]; rfl)]
    exact hs
  · rw [List.concat_eq_append] at hdec
    have hperm : List.Perm (ys ++ [m]) (flushedIds w) :=
      hdec ▸ List.perm_insertionSort _ _
    have hsorted : List.Sorted (· ≤ ·) (ys ++ [m]) :=
      hdec ▸ List.sorted_insertionSort _ _
    have hnd2 : (ys ++ [m]).Nodup := (hperm.symm).nodup (flushedIds_nodup w hnd)
    have hmys : m ∉ ys := by
      have := (List.nodup_append.mp hnd2).2.2
      intro hin
      exact this hin (by simp)
    have hm : m ∈ flushedIds w := hperm.subset (by simp)
    obtain ⟨t, htmem, htid⟩ := List.mem_map.mp hm
    have ht2 := List.mem_filter.mp htmem
    have hmle : m ≤ s.id := htid ▸ hmax t ht2.1 (by simpa using ht2.2)
    have hnotin : s.id ∉ ys := by
      intro hin
      have h1 : s.id ≤ m :=
        (List.pairwise_append.mp hsorted).2.2 s.id hin m (by simp)
      have heq : s.id = m := le_antisymm h1 hmle
      exact hmys (heq ▸ hin)
    show s ∈ w.segments.filter _
    refine List.mem_filter.mpr ⟨hs, ?_⟩
    rw [hdec, List.dropLast_concat]
    simp [hnotin]

/-- C7 (code bug): the claimed checkpoint-then-clean sequence can never
execute, because Go's `Checkpoint` self-deadlocks: it acquires `w.mtx`
(head.go:348) and then calls `w.write` (head.go:352), which re-acquires the
same non-reentrant `sync.Mutex` (head.go:312).  With the lock modelled,
(i) checkpointing any WAL state from the unlocked state yields no result —
`Checkpoint` never returns, so no segment is ever marked flushed — while
(ii) `Clean`, which locks only once, always completes with `walClean`'s
effect.  The behaviour the claim describes does hold of the lock-free
logical transformers: (iii) on any WAL with distinct segment ids a second
`Clean` is a no-op (it deletes nothing and leaves the whole state, segment
table included, unchanged), and so is any further run of `Clean` calls;
(iv) in particular right after a (logically completed) checkpoint followed
by `Clean`; (v) no `Clean` ever deletes the flushed segment with the
highest id — the single most-recently-flushed segment always survives. -/
theorem c7_checkpoint_deadlock_code_bug :
    (∀ w : WAL, walCheckpointL false w = none) ∧
    (∀ w : WAL, walCleanL false w = some (walClean w)) ∧
    (∀ w : WAL, (w.segments.map (·.id)).Nodup →
      walClean (walClean w) = walClean w ∧
      ∀ n, walClean^[n] (walClean w) = walClean w) ∧
    (∀ w : WAL, ((walCheckpoint w).segments.map (·.id)).Nodup →
      walClean (walClean (walCheckpoint w)) = walClean (walCheckpoint w)) ∧
    (∀ w : WAL, (w.segments.map (·.id)).Nodup →
      ∀ s ∈ w.segments, s.state = SegState.flushed →
      (∀ t ∈ w.segments, t.state = SegState.flushed → t.id ≤ s.id) →
      s ∈ (walClean w).segments) := by
  refine ⟨fun w => rfl, fun w => rfl,
    fun w hnd => ⟨walClean_idem w hnd, fun n => ?_⟩,
    fun w hnd => walClean_idem _ hnd,
    fun w hnd => walClean_keeps_max_flushed w hnd⟩
  induction n with
  | zero => rfl
  | succ k ih => rw [Function.iterate_succ_apply', ih, walClean_idem w hnd]

/-- A small WAL with two flushed segments and an active one, for the C7
witness. -/
def wit7 : WAL := ⟨[⟨0, 7, [], .flushed⟩, ⟨1, 7, [], .flushed⟩, ⟨2, 3, [], .active⟩], 2, 10⟩

/-- C7 witness: on a concrete WAL the hypotheses hold; the lock-modelled
checkpoint yields no result while the lock-modelled clean completes, a
second `Clean` changes nothing, and the highest-id flushed segment survives
the first. -/
theorem c7_checkpoint_deadlock_witness :
    ((wit7.segments.map (·.id)).Nodup ∧
      (⟨1, 7, [], .flushed⟩ : Segment) ∈ wit7.segments ∧
      ((walCheckpoint wit7).segments.map (·.id)).Nodup) ∧
    walCheckpointL false wit7 = none ∧
    walCleanL false wit7 = some (walClean wit7) ∧
    walClean (walClean wit7) = walClean wit7 ∧
    walClean (walClean (walCheckpoint wit7)) = walClean (walCheckpoint wit7) ∧
    (⟨1, 7, [], .flushed⟩ : Segment) ∈ (walClean wit7).segments :=
  ⟨⟨by decide, by decide, by decide⟩,
    c7_checkpoint_deadlock_code_bug.1 wit7,
    c7_checkpoint_deadlock_code_bug.2.1 wit7,
    (c7_checkpoint_deadlock_code_bug.2.2.1 wit7 (by decide)).1,
    c7_checkpoint_deadlock_code_bug.2.2.2.1 wit7 (by decide),
    c7_checkpoint_deadlock_code_bug.2.2.2.2 wit7 (by decide)
      ⟨1, 7, [], .flushed⟩ (by decide) (by decide) (by decide)⟩

/-- Bytes one record occupies on disk: 13-byte header plus payload. -/
def frameSize (r : Nat × List Nat) : Nat := 13 + r.2.length

/-- Append a list of `(type, payload)` records through `WAL.write`. -/
def walWriteMany (w : WAL) (rs : List (Nat × List Nat)) : WAL :=
  rs.foldl (fun w r => walWrite w r.1 r.2) w

/-- Concatenated frames of a record list. -/
def framesBytes (rs : List (Nat × List Nat)) : List Nat :=
  (rs.map fun r => frame r.1 r.2).flatten

theorem frame_length (typ : Nat) (data : List Nat) :
    (frame typ data).length = 13 + data.length := by
  simp [frame, be64, be32]
  omega

theorem sum_take_le (l : List Nat) (i : Nat) : (l.take i).sum ≤ l.sum := by
  conv_rhs => rw [← List.take_append_drop i l]
  rw [List.sum_append]
  omega

/-- A write that finds the current segment at or over capacity rotates to a
new segment with the next id. -/
theorem walWrite_rotates_currentId (w : WAL) (typ : Nat) (data : List Nat)
    (h : w.segmentSize ≤ (wCurrent w).offset) :
    (walWrite w typ data).currentId = w.currentId + 1 := by
  simp [walWrite, h, walNewSegment]

/-- A write below capacity stays in the current segment. -/
theorem walWrite_norotate_currentId (w : WAL) (typ : Nat) (data : List Nat)
    (h : (wCurrent w).offset < w.segmentSize) :
    (walWrite w typ data).currentId = w.currentId := by
  simp [walWrite, not_le.mpr h]

theorem walWrite_norotate_concrete (sid : Nat) (soff : Int) (sdata : List Nat)
    (st : SegState) (ssz : Int) (typ : Nat) (data : List Nat)
    (hoff : soff < ssz) :
    walWrite ⟨[⟨sid, soff, sdata, st⟩], sid, ssz⟩ typ data =
      ⟨[⟨sid, soff + ((13 + data.length : Nat) : Int),
         sdata ++ frame typ data, st⟩], sid, ssz⟩ := by
  simp [walWrite, wCurrent, wFindCurrent, not_le.mpr hoff, frame_length]

theorem walWrite_rotate_concrete (sid : Nat) (soff : Int) (sdata : List Nat)
    (st : SegState) (ssz : Int) (typ : Nat) (data : List Nat)
    (hoff : ssz ≤ soff) :
    walWrite ⟨[⟨sid, soff, sdata, st⟩], sid, ssz⟩ typ data =
      ⟨[⟨sid, soff, sdata, .sealed⟩,
        ⟨sid + 1, ((13 + data.length : Nat) : Int), frame typ data, .active⟩],
       sid + 1, ssz⟩ := by
  have hne : sid ≠ sid + 1 := by omega
  simp [walWrite, wCurrent, wFindCurrent, hoff, walNewSegment, frame_length, hne]

/-- Writing a run of records that never meets capacity stays in the single
segment, summing the framed sizes into the offset. -/
theorem walWriteMany_run (rs : List (Nat × List Nat)) :
    ∀ (sid : Nat) (soff : Int) (sdata : List Nat) (st : SegState) (ssz : Int),
    (∀ i < rs.length, soff + (((rs.take i).map frameSize).sum : Int) < ssz) →
    walWriteMany ⟨[⟨sid, soff, sdata, st⟩], sid, ssz⟩ rs =
      ⟨[⟨sid, soff + ((rs.map frameSize).sum : Int),
         sdata ++ framesBytes rs, st⟩], sid, ssz⟩ := by
  induction rs with
  | nil =>
    intro sid soff sdata st ssz _
    simp [walWriteMany, framesBytes]
  | cons r tl ih =>
    intro sid soff sdata st ssz hpre
    have h0 : soff < ssz := by simpa using hpre 0 (by simp)
    have hstep := walWrite_norotate_concrete sid soff sdata st ssz r.1 r.2 h0
    have hrec := ih sid (soff + ((13 + r.2.length : Nat) : Int))
      (sdata ++ frame r.1 r.2) st ssz (by
        intro i hi
        have := hpre (i + 1) (by simpa using hi)
        simp only [List.take_succ_cons, List.map_cons, List.sum_cons] at this
        push_cast at this ⊢
        simp only [frameSize] at this
        push_cast at this
        omega)
    show walWriteMany (walWrite ⟨[⟨sid, soff, sdata, st⟩], sid, ssz⟩ r.1 r.2) tl = _
    rw [hstep, hrec]
    have hoff2 : soff + ((13 + r.2.length : Nat) : Int) + ((tl.map frameSize).sum : Int)
        = soff + ((((r :: tl).map frameSize).sum : Nat) : Int) := by
      simp only [List.map_cons, List.sum_cons, frameSize]
      push_cast
      ring
    have hdata2 : (sdata ++ frame r.1 r.2) ++ framesBytes tl
        = sdata ++ framesBytes (r :: tl) := by
      simp [framesBytes, List.append_assoc]
    rw [hoff2, hdata2]

theorem take_append_le_sum (pre : List (Nat × List Nat)) (x : Nat × List Nat)
    (i : Nat) (hi : i < (pre ++ [x]).length) :
    (((pre ++ [x]).take i).map frameSize).sum ≤ (pre.map frameSize).sum := by
  have hle : i ≤ pre.length := by
    simp only [List.length_append, List.length_cons, List.length_nil] at hi
    omega
  rw [List.take_append_of_le_length hle]
  calc ((pre.take i).map frameSize).sum
      = ((pre.map frameSize).take i).sum := by rw [List.map_take]
    _ ≤ (pre.map frameSize).sum := sum_take_le _ _

theorem walNew_nil (cap : Int) (hcap : cap ≠ 0) :
    walNew [] cap = ⟨[⟨0, 0, [], .active⟩], 0, cap⟩ := by
  simp [walNew, hcap]

/-- C6: (i) a write that sees the current offset at or past capacity opens
segment `previous + 1` before writing, (ii) a write below capacity does not
rotate; (iii) from a fresh WAL, appending records `pre` whose framed bytes
stay below capacity and one record `x` that takes the cumulative bytes to at
least capacity performs no rotation yet, and the following write causes
exactly one rotation: segment 0 is sealed at its final offset — at most
capacity plus the overflowing record's bytes, since the check precedes the
write — and segment 1 becomes active holding only the new record. -/
theorem c6_rotation_before_write :
    (∀ (w : WAL) (typ : Nat) (data : List Nat),
      w.segmentSize ≤ (wCurrent w).offset →
      (walWrite w typ data).currentId = w.currentId + 1) ∧
    (∀ (w : WAL) (typ : Nat) (data : List Nat),
      (wCurrent w).offset < w.segmentSize →
      (walWrite w typ data).currentId = w.currentId) ∧
    (∀ (cap : Int) (pre : List (Nat × List Nat)) (x r : Nat × List Nat),
      0 < cap →
      ((pre.map frameSize).sum : Int) < cap →
      cap ≤ ((pre.map frameSize).sum : Int) + frameSize x →
      walWriteMany (walNew [] cap) (pre ++ [x]) =
        ⟨[⟨0, (((pre ++ [x]).map frameSize).sum : Int),
           framesBytes (pre ++ [x]), .active⟩], 0, cap⟩ ∧
      walWrite (walWriteMany (walNew [] cap) (pre ++ [x])) r.1 r.2 =
        ⟨[⟨0, (((pre ++ [x]).map frameSize).sum : Int),
           framesBytes (pre ++ [x]), .sealed⟩,
          ⟨1, (frameSize r : Int), frame r.1 r.2, .active⟩], 1, cap⟩ ∧
      (((pre ++ [x]).map frameSize).sum : Int) < cap + frameSize x) := by
  refine ⟨walWrite_rotates_currentId, walWrite_norotate_currentId, ?_⟩
  intro cap pre x r hcap hfits hover
  have hsum : (((pre ++ [x]).map frameSize).sum : Int)
      = ((pre.map frameSize).sum : Int) + frameSize x := by
    simp only [List.map_append, List.sum_append, List.map_cons, List.map_nil,
      List.sum_cons, List.sum_nil]
    push_cast
    ring
  have hrun := walWriteMany_run (pre ++ [x]) 0 0 [] .active cap (by
    intro i hi
    have h2 : ((((pre ++ [x]).take i).map frameSize).sum : Int)
        ≤ ((pre.map frameSize).sum : Int) :=
      Nat.cast_le.mpr (take_append_le_sum pre x i hi)
    omega)
  rw [walNew_nil cap (by omega)]
  have h1 : walWriteMany ⟨[⟨0, 0, [], .active⟩], 0, cap⟩ (pre ++ [x]) =
      ⟨[⟨0, (((pre ++ [x]).map frameSize).sum : Int),
         framesBytes (pre ++ [x]), .active⟩], 0, cap⟩ := by
    rw [hrun]
    simp
  refine ⟨h1, ?_, by rw [hsum]; omega⟩
  rw [h1]
  have hrot := walWrite_rotate_concrete 0 (((pre ++ [x]).map frameSize).sum : Int)
    (framesBytes (pre ++ [x])) .active cap r.1 r.2 (by rw [hsum]; omega)
  rw [hrot]
  have hfr : ((13 + r.2.length : Nat) : Int) = (frameSize r : Int) := by
    simp [frameSize]
  rw [hfr]

/-- C6 witness: a concrete over-capacity state rotates; a below-capacity one
does not; and a two-record run crossing capacity 20 rotates exactly once on
the next write. -/
theorem c6_rotation_before_write_witness :
    ((20 : Int) ≤ (wCurrent ⟨[⟨0, 25, [], .active⟩], 0, 20⟩).offset ∧
      (walWrite ⟨[⟨0, 25, [], .active⟩], 0, 20⟩ 3 []).currentId =
        (⟨[⟨0, 25, [], .active⟩], 0, 20⟩ : WAL).currentId + 1) ∧
    ((wCurrent ⟨[⟨0, 3, [], .active⟩], 0, 20⟩).offset < (20 : Int) ∧
      (walWrite ⟨[⟨0, 3, [], .active⟩], 0, 20⟩ 3 []).currentId =
        (⟨[⟨0, 3, [], .active⟩], 0, 20⟩ : WAL).currentId) ∧
    ((0 : Int) < 20 ∧
      ((([((2 : Nat), [1, 2, 3])].map frameSize).sum : Int) < 20 ∧
       (20 : Int) ≤ (([((2 : Nat), [1, 2, 3])].map frameSize).sum : Int) +
         frameSize (2, [9, 8, 7, 6, 5])) ∧
      walWriteMany (walNew [] 20) ([((2 : Nat), [1, 2, 3])] ++ [(2, [9, 8, 7, 6, 5])]) =
        ⟨[⟨0, (((([((2 : Nat), [1, 2, 3])] ++ [(2, [9, 8, 7, 6, 5])]).map frameSize).sum : Nat) : Int),
           framesBytes ([((2 : Nat), [1, 2, 3])] ++ [(2, [9, 8, 7, 6, 5])]), .active⟩], 0, 20⟩ ∧
      walWrite (walWriteMany (walNew [] 20)
          ([((2 : Nat), [1, 2, 3])] ++ [(2, [9, 8, 7, 6, 5])])) 3 [] =
        ⟨[⟨0, (((([((2 : Nat), [1, 2, 3])] ++ [(2, [9, 8, 7, 6, 5])]).map frameSize).sum : Nat) : Int),
           framesBytes ([((2 : Nat), [1, 2, 3])] ++ [(2, [9, 8, 7, 6, 5])]), .sealed⟩,
          ⟨1, (frameSize ((3 : Nat), ([] : List Nat)) : Int),
           frame 3 [], .active⟩], 1, 20⟩ ∧
      ((([((2 : Nat), [1, 2, 3])] ++ [(2, [9, 8, 7, 6, 5])]).map frameSize).sum : Int)
        < 20 + frameSize (2, [9, 8, 7, 6, 5])) :=
  ⟨⟨by decide, c6_rotation_before_write.1 ⟨[⟨0, 25, [], .active⟩], 0, 20⟩ 3 [] (by decide)⟩,
   ⟨by decide, c6_rotation_before_write.2.1 ⟨[⟨0, 3, [], .active⟩], 0, 20⟩ 3 [] (by decide)⟩,
   by decide, ⟨by decide, by decide⟩,
   c6_rotation_before_write.2.2 20 [((2 : Nat), [1, 2, 3])] (2, [9, 8, 7, 6, 5])
     (3, []) (by decide) (by decide) (by decide)⟩

/-- Decoding inverts the 8-byte big-endian encoding, up to `uint64` range. -/
theorem beVal_be64 (n : Nat) : beVal (be64 n) = n % 18446744073709551616 := by
  simp only [be64, beVal, byteOf, List.foldl_cons, List.foldl_nil,
    Nat.shiftRight_eq_div_pow]
  norm_num
  have e1 : (n / 72057594037927936 % 256) * 256 + n / 281474976710656 % 256
      = n / 281474976710656 % 65536 := by omega
  have e2 : (n / 281474976710656 % 65536) * 256 + n / 1099511627776 % 256
      = n / 1099511627776 % 16777216 := by omega
  have e3 : (n / 1099511627776 % 16777216) * 256 + n / 4294967296 % 256
      = n / 4294967296 % 4294967296 := by omega
  have e4 : (n / 4294967296 % 4294967296) * 256 + n / 16777216 % 256
      = n / 16777216 % 1099511627776 := by omega
  have e5 : (n / 16777216 % 1099511627776) * 256 + n / 65536 % 256
      = n / 65536 % 281474976710656 := by omega
  have e6 : (n / 65536 % 281474976710656) * 256 + n / 256 % 256
      = n / 256 % 72057594037927936 := by omega
  have e7 : (n / 256 % 72057594037927936) * 256 + n % 256
      = n % 18446744073709551616 := by omega
  omega

/-- Decoding inverts the 4-byte big-endian encoding, up to `uint32` range. -/
theorem beVal_be32 (n : Nat) : beVal (be32 n) = n % 4294967296 := by
  simp only [be32, beVal, byteOf, List.foldl_cons, List.foldl_nil,
    Nat.shiftRight_eq_div_pow]
  norm_num
  have e1 : (n / 16777216 % 256) * 256 + n / 65536 % 256
      = n / 65536 % 65536 := by omega
  have e2 : (n / 65536 % 65536) * 256 + n / 256 % 256
      = n / 256 % 16777216 := by omega
  have e3 : (n / 256 % 16777216) * 256 + n % 256 = n % 4294967296 := by omega
  omega

theorem crcStep_lt (c : Nat) (h : c < 4294967296) : crcStep c < 4294967296 := by
  unfold crcStep
  have h1 : c >>> 1 < 4294967296 := by
    simp only [Nat.shiftRight_eq_div_pow]
    omega
  by_cases h2 : c % 2 = 1
  · simp only [h2, if_pos]
    have hp : crcPoly < 4294967296 := by decide
    calc (c >>> 1) ^^^ crcPoly < 2 ^ 32 := Nat.xor_lt_two_pow h1 hp
      _ = 4294967296 := by norm_num
  · simp [h2, h1]

theorem crcByte_lt (c b : Nat) (h : c < 4294967296) : crcByte c b < 4294967296 := by
  unfold crcByte
  have hx : c ^^^ byteOf b < 4294967296 := by
    have hb : byteOf b < 4294967296 := by
      have : byteOf b < 256 := Nat.mod_lt _ (by omega)
      omega
    calc c ^^^ byteOf b < 2 ^ 32 := Nat.xor_lt_two_pow h hb
      _ = 4294967296 := by norm_num
  have hiter : ∀ k x, x < 4294967296 → crcStep^[k] x < 4294967296 := by
    intro k
    induction k with
    | zero => intro x hx2; simpa using hx2
    | succ m ih =>
      intro x hx2
      rw [Function.iterate_succ_apply]
      exact ih _ (crcStep_lt x hx2)
  exact hiter 8 _ hx

/-- The CRC32 value always fits in 32 bits. -/
theorem crc32_lt (data : List Nat) : crc32 data < 4294967296 := by
  unfold crc32
  have hfold : ∀ (l : List Nat) (acc : Nat), acc < 4294967296 →
      l.foldl crcByte acc < 4294967296 := by
    intro l
    induction l with
    | nil => intro acc h; simpa using h
    | cons b t ih =>
      intro acc h
      rw [List.foldl_cons]
      exact ih _ (crcByte_lt acc b h)
  have h1 := hfold data 4294967295 (by omega)
  calc (data.foldl crcByte 4294967295) ^^^ 4294967295 < 2 ^ 32 :=
      Nat.xor_lt_two_pow h1 (by norm_num)
    _ = 4294967296 := by norm_num

/-- Reader for the unsigned varint groups emitted by `uvarint`. -/
def uvarintDecode : List Nat → Option (Nat × List Nat)
  | [] => none
  | b :: rest =>
    if b < 128 then some (b, rest)
    else
      match uvarintDecode rest with
      | none => none
      | some (n, r) => some ((b - 128) + n * 128, r)

theorem uvarintGo_decode (fuel : Nat) :
    ∀ (n : Nat) (rest : List Nat), n ≤ fuel →
    uvarintDecode (uvarintGo fuel n ++ rest) = some (n, rest) := by
  induction fuel with
  | zero =>
    intro n rest hn
    interval_cases n
    simp [uvarintGo, uvarintDecode]
  | succ m ih =>
    intro n rest hn
    by_cases h : n < 128
    · simp [uvarintGo, h, uvarintDecode]
    · have hrec := ih (n / 128) rest (by omega)
      simp only [uvarintGo, h, if_neg, ite_false, List.cons_append]
      simp only [uvarintDecode]
      have hb : ¬ (n % 128 + 128 < 128) := by omega
      simp only [hb, if_neg, ite_false, hrec]
      have hv : n % 128 + 128 - 128 + n / 128 * 128 = n := by omega
      rw [hv]

/-- Round trip: `uvarintDecode` inverts `uvarint` in front of any suffix. -/
theorem uvarint_decode (n : Nat) (rest : List Nat) :
    uvarintDecode (uvarint n ++ rest) = some (n, rest) :=
  uvarintGo_decode n n rest (le_refl n)

/-- Reader for a zigzag varint. -/
def varintDecode (bs : List Nat) : Option (Int × List Nat) :=
  match uvarintDecode bs with
  | none => none
  | some (u, r) =>
    some (if u % 2 = 0 then ((u / 2 : Nat) : Int) else -((u / 2 : Nat) : Int) - 1, r)

/-- Round trip: `varintDecode` inverts `varint` in front of any suffix. -/
theorem varint_decode (x : Int) (rest : List Nat) :
    varintDecode (varint x ++ rest) = some (x, rest) := by
  unfold varint varintDecode
  rw [uvarint_decode]
  by_cases h : 0 ≤ x
  · have hz : zigzag x = 2 * x.toNat := by simp [zigzag, h]
    simp only [hz]
    have he : 2 * x.toNat % 2 = 0 := by omega
    have hd : 2 * x.toNat / 2 = x.toNat := by omega
    simp only [he, if_pos, ite_true, hd]
    rw [Int.toNat_of_nonneg h]
  · have hz : zigzag x = 2 * (-x).toNat - 1 := by simp [zigzag, h]
    have hpos : 1 ≤ (-x).toNat := by omega
    simp only [hz]
    have he : ¬ ((2 * (-x).toNat - 1) % 2 = 0) := by omega
    have hd : (2 * (-x).toNat - 1) / 2 = (-x).toNat - 1 := by omega
    simp only [he, if_neg, ite_false, hd]
    have hx : (((-x).toNat : Nat) : Int) = -x := Int.toNat_of_nonneg (by omega)
    have hcast : (((-x).toNat - 1 : Nat) : Int) = -x - 1 := by
      rw [Nat.cast_sub hpos, hx]
      norm_num
    rw [hcast]
    congr 1
    ring_nf

/-- Reader for one length-prefixed name/value pair. -/
def readLabel (bs : List Nat) : Option (LabelPair × List Nat) :=
  match varintDecode bs with
  | none => none
  | some (nlen, r1) =>
    if 0 ≤ nlen ∧ nlen.toNat ≤ r1.length then
      match varintDecode (r1.drop nlen.toNat) with
      | none => none
      | some (vlen, r3) =>
        if 0 ≤ vlen ∧ vlen.toNat ≤ r3.length then
          some ((r1.take nlen.toNat, r3.take vlen.toNat), r3.drop vlen.toNat)
        else none
    else none

theorem readLabel_decode (p : LabelPair) (rest : List Nat) :
    readLabel (encodePair p ++ rest) = some (p, rest) := by
  unfold readLabel encodePair
  have h1 : (varint (p.1.length : Int) ++ p.1 ++ varint (p.2.length : Int) ++ p.2) ++ rest
      = varint (p.1.length : Int) ++ (p.1 ++ (varint (p.2.length : Int) ++ (p.2 ++ rest))) := by
    simp [List.append_assoc]
  rw [h1, varint_decode]
  have ht1 : ((p.1.length : Int)).toNat = p.1.length := by omega
  have hc1 : (0 : Int) ≤ (p.1.length : Int) ∧
      ((p.1.length : Int)).toNat ≤ (p.1 ++ (varint (p.2.length : Int) ++ (p.2 ++ rest))).length := by
    constructor
    · positivity
    · rw [ht1]
      simp
  simp only [hc1, if_pos, ite_true, ht1]
  rw [List.drop_left, varint_decode]
  have ht2 : ((p.2.length : Int)).toNat = p.2.length := by omega
  have hc2 : (0 : Int) ≤ (p.2.length : Int) ∧
      ((p.2.length : Int)).toNat ≤ (p.2 ++ rest).length := by
    constructor
    · positivity
    · rw [ht2]
      simp
  simp only [hc2, if_pos, ite_true, ht2]
  rw [List.take_left, List.take_left, List.drop_left]
  simp

/-- Reader for a fixed number of pairs. -/
def readLabels : Nat → List Nat → Option (Labels × List Nat)
  | 0, bs => some ([], bs)
  | k + 1, bs =>
    match readLabel bs with
    | none => none
    | some (p, r) =>
      match readLabels k r with
      | none => none
      | some (ps, r2) => some (p :: ps, r2)

theorem readLabels_decode (l : Labels) (rest : List Nat) :
    readLabels l.length ((l.map encodePair).flatten ++ rest) = some (l, rest) := by
  induction l generalizing rest with
  | nil => simp [readLabels]
  | cons p t ih =>
    have h1 : (((p :: t).map encodePair).flatten ++ rest)
        = encodePair p ++ ((t.map encodePair).flatten ++ rest) := by
      simp [List.append_assoc]
    rw [List.length_cons]
    simp only [readLabels, h1, readLabel_decode, ih]

/-- Reader for a full label-set payload: varint pair count, then the pairs. -/
def decodeLabels (bs : List Nat) : Option (Labels × List Nat) :=
  match varintDecode bs with
  | none => none
  | some (n, r) => if 0 ≤ n then readLabels n.toNat r else none

/-- Round trip: the label-set encoding of `LogSeries`/`LogSample` is
losslessly invertible in front of any suffix. -/
theorem decodeLabels_decode (l : Labels) (rest : List Nat) :
    decodeLabels (encodeLabels l ++ rest) = some (l, rest) := by
  unfold decodeLabels encodeLabels
  rw [List.append_assoc, varint_decode]
  have hn : (0 : Int) ≤ (l.length : Int) := by positivity
  have ht : ((l.length : Int)).toNat = l.length := by omega
  simp only [hn, if_pos, ite_true, ht, readLabels_decode]

/-- Reader for a sample-batch payload: label set, then the 16-byte trailer
(8-byte big-endian timestamp, 8-byte big-endian value bit pattern). -/
def decodeSamplePayload (bs : List Nat) : Option (Labels × Nat × Nat × List Nat) :=
  match decodeLabels bs with
  | none => none
  | some (l, r) =>
    if 16 ≤ r.length then
      some (l, beVal (r.take 8), beVal ((r.drop 8).take 8), r.drop 16)
    else none

/-- Round trip: `LogSample`'s payload decodes back to the label set, the
`uint64` image of the timestamp, and the value bits. -/
theorem decodeSamplePayload_decode (l : Labels) (s : Sample) (rest : List Nat)
    (hbits : s.valueBits < 18446744073709551616) :
    decodeSamplePayload (samplePayload l s ++ rest) =
      some (l, toUInt64 s.timestamp, s.valueBits, rest) := by
  unfold decodeSamplePayload samplePayload
  have h1 : ((encodeLabels l ++ be64 (toUInt64 s.timestamp) ++ be64 s.valueBits) ++ rest)
      = encodeLabels l ++ (be64 (toUInt64 s.timestamp) ++ (be64 s.valueBits ++ rest)) := by
    simp [List.append_assoc]
  rw [h1, decodeLabels_decode]
  have hlen64 : ∀ m : Nat, (be64 m).length = 8 := by intro m; rfl
  have hlen : 16 ≤ (be64 (toUInt64 s.timestamp) ++ (be64 s.valueBits ++ rest)).length := by
    simp only [List.length_append, hlen64]
    omega
  simp only [hlen, if_pos, ite_true]
  have htake8 : (be64 (toUInt64 s.timestamp) ++ (be64 s.valueBits ++ rest)).take 8
      = be64 (toUInt64 s.timestamp) := by
    rw [show (8 : Nat) = (be64 (toUInt64 s.timestamp)).length from rfl, List.take_left]
  have hdrop8 : (be64 (toUInt64 s.timestamp) ++ (be64 s.valueBits ++ rest)).drop 8
      = be64 s.valueBits ++ rest := by
    rw [show (8 : Nat) = (be64 (toUInt64 s.timestamp)).length from rfl, List.drop_left]
  have htake8b : (be64 s.valueBits ++ rest).take 8 = be64 s.valueBits := by
    rw [show (8 : Nat) = (be64 s.valueBits).length from rfl, List.take_left]
  have hdrop16 : (be64 (toUInt64 s.timestamp) ++ (be64 s.valueBits ++ rest)).drop 16
      = rest := by
    have h16 : (16 : Nat) = 8 + 8 := rfl
    rw [h16, ← List.drop_drop, hdrop8]
    rw [show (8 : Nat) = (be64 s.valueBits).length from rfl, List.drop_left]
  rw [htake8, hdrop8, htake8b, hdrop16, beVal_be64, beVal_be64]
  have ht : toUInt64 s.timestamp % 18446744073709551616 = toUInt64 s.timestamp := by
    have hlt : toUInt64 s.timestamp < 18446744073709551616 := by
      unfold toUInt64
      omega
    omega
  rw [ht, Nat.mod_eq_of_lt hbits]

/-- C8: every record written by `WAL.write` is framed byte-exactly as 1-byte
type tag, 8-byte big-endian payload length, 4-byte big-endian CRC32 of the
payload, then the raw payload — witnessed both by the byte layout and by
decoding the length and CRC fields back out of the frame.  Every `LogSample`
payload is the label-set encoding (varint pair count, then varint-length-
prefixed name and value per pair) followed by the 16-byte trailer of
big-endian timestamp and IEEE-754 value bit pattern — witnessed by the
lossless decoders for both layers. -/
theorem c8_record_framing (typ : Nat) (data : List Nat) (l : Labels) (s : Sample)
    (rest : List Nat)
    (hlen : data.length < 18446744073709551616)
    (hbits : s.valueBits < 18446744073709551616) :
    frame typ data = [typ] ++ be64 data.length ++ be32 (crc32 data) ++ data ∧
    (frame typ data).length = 13 + data.length ∧
    (frame typ data).take 1 = [typ] ∧
    beVal (((frame typ data).drop 1).take 8) = data.length ∧
    beVal (((frame typ data).drop 9).take 4) = crc32 data ∧
    (frame typ data).drop 13 = data ∧
    samplePayload l s =
      encodeLabels l ++ be64 (toUInt64 s.timestamp) ++ be64 s.valueBits ∧
    decodeLabels (encodeLabels l ++ rest) = some (l, rest) ∧
    decodeSamplePayload (samplePayload l s ++ rest) =
      some (l, toUInt64 s.timestamp, s.valueBits, rest) := by
  have hd1 : (frame typ data).drop 1
      = be64 data.length ++ (be32 (crc32 data) ++ data) := rfl
  have hd9 : (frame typ data).drop 9 = be32 (crc32 data) ++ data := by
    show (be64 data.length ++ (be32 (crc32 data) ++ data)).drop 8 = _
    rw [show (8 : Nat) = (be64 data.length).length from rfl, List.drop_left]
  have hd13 : (frame typ data).drop 13 = data := by
    have h4 : (frame typ data).drop 13 = ((frame typ data).drop 9).drop 4 := by
      rw [List.drop_drop]
    rw [h4, hd9]
    rw [show (4 : Nat) = (be32 (crc32 data)).length from rfl, List.drop_left]
  refine ⟨rfl, frame_length typ data, rfl, ?_, ?_, hd13, rfl,
    decodeLabels_decode l rest, decodeSamplePayload_decode l s rest hbits⟩
  · rw [hd1, show (8 : Nat) = (be64 data.length).length from rfl,
      List.take_left, beVal_be64]
    omega
  · rw [hd9, show (4 : Nat) = (be32 (crc32 data)).length from rfl,
      List.take_left, beVal_be32]
    have := crc32_lt data
    omega

/-- C8 witness: the framing and payload facts evaluated on a concrete record
and a concrete sample payload. -/
theorem c8_record_framing_witness :
    (([1, 2, 3] : List Nat).length < 18446744073709551616 ∧
      bits10 < 18446744073709551616) ∧
    (frame 2 [1, 2, 3] = [2] ++ be64 ([1, 2, 3] : List Nat).length ++
      be32 (crc32 [1, 2, 3]) ++ [1, 2, 3] ∧
    (frame 2 [1, 2, 3]).length = 13 + ([1, 2, 3] : List Nat).length ∧
    (frame 2 [1, 2, 3]).take 1 = [2] ∧
    beVal (((frame 2 [1, 2, 3]).drop 1).take 8) = ([1, 2, 3] : List Nat).length ∧
    beVal (((frame 2 [1, 2, 3]).drop 9).take 4) = crc32 [1, 2, 3] ∧
    (frame 2 [1, 2, 3]).drop 13 = [1, 2, 3] ∧
    samplePayload scenLabels ⟨1, bits10⟩ =
      encodeLabels scenLabels ++ be64 (toUInt64 (1 : Int)) ++ be64 bits10 ∧
    decodeLabels (encodeLabels scenLabels ++ [7]) = some (scenLabels, [7]) ∧
    decodeSamplePayload (samplePayload scenLabels ⟨1, bits10⟩ ++ [7]) =
      some (scenLabels, toUInt64 (1 : Int), bits10, [7])) :=
  ⟨⟨by decide, by decide⟩,
    c8_record_framing 2 [1, 2, 3] scenLabels ⟨1, bits10⟩ [7]
      (by decide) (by decide)⟩

end Protsdb
namespace Protsdb

inductive WalOp
  | write (typ : Nat) (data : List Nat)
  | checkpoint
  | clean

def applyOp (w : WAL) : WalOp → WAL
  | .write typ data => walWrite w typ data
  | .checkpoint => walCheckpoint w
  | .clean => walClean w

inductive WalReach : WAL → Prop
  | init (loaded : List (Nat × Int)) (size : Int)
      (hsorted : (loaded.map (·.1)).Pairwise (· < ·)) :
      WalReach (walNew loaded size)
  | step (w : WAL) (op : WalOp) : WalReach w → WalReach (applyOp w op)

def SegsInv (segs : List Segment) (cid : Nat) : Prop :=
  (segs.map (·.id)).Nodup ∧
  (∃ c ∈ segs, c.id = cid ∧ c.state = SegState.active) ∧
  (∀ s ∈ segs, s.state = SegState.active → s.id = cid) ∧
  (∀ s ∈ segs, s.id ≤ cid)

def WInv (w : WAL) : Prop := SegsInv w.segments w.currentId

theorem ids_map_pres (L : List Segment) (f : Segment → Segment)
    (hid : ∀ s, (f s).id = s.id) : (L.map f).map (·.id) = L.map (·.id) := by
  rw [List.map_map]
  exact List.map_congr_left (fun s _ => hid s)

theorem segsinv_map (segs : List Segment) (cid : Nat) (f : Segment → Segment)
    (hid : ∀ s, (f s).id = s.id) (hst : ∀ s, (f s).state = s.state)
    (hinv : SegsInv segs cid) : SegsInv (segs.map f) cid := by
  obtain ⟨hnd, ⟨c, hc, hcid, hcact⟩, huniq, hle⟩ := hinv
  refine ⟨?_, ⟨f c, List.mem_map_of_mem f hc, by rw [hid]; exact hcid,
    by rw [hst]; exact hcact⟩, ?_, ?_⟩
  · rw [ids_map_pres _ f hid]
    exact hnd
  · intro s hs hact
    obtain ⟨t, ht, hft⟩ := List.mem_map.mp hs
    rw [← hft] at hact ⊢
    rw [hid]
    rw [hst] at hact
    exact huniq t ht hact
  · intro s hs
    obtain ⟨t, ht, hft⟩ := List.mem_map.mp hs
    rw [← hft, hid]
    exact hle t ht

theorem seal_append_inv (segs : List Segment) (cid newid : Nat) (off : Int)
    (dat : List Nat) (hlt : cid < newid)
    (hinv : SegsInv segs cid) :
    SegsInv ((segs.map fun s =>
      if s.id == cid then { s with state := SegState.sealed } else s)
      ++ [⟨newid, off, dat, SegState.active⟩]) newid := by
  obtain ⟨hnd, ⟨c, hc, hcid, hcact⟩, huniq, hle⟩ := hinv
  have hidp : ∀ s : Segment,
      ((if s.id == cid then { s with state := SegState.sealed } else s) : Segment).id
        = s.id := by
    intro s
    by_cases h : s.id == cid <;> simp [h]
  refine ⟨?_, ⟨⟨newid, off, dat, .active⟩, by simp, rfl, rfl⟩, ?_, ?_⟩
  · rw [List.map_append, ids_map_pres _ _ hidp]
    simp only [List.map_cons, List.map_nil]
    rw [List.nodup_append]
    refine ⟨hnd, by simp, ?_⟩
    intro a ha
    simp only [List.mem_singleton]
    obtain ⟨s, hsmem, hsid⟩ := List.mem_map.mp ha
    intro heq
    have := hle s hsmem
    omega
  · intro s hs hact
    rcases List.mem_append.mp hs with h1 | h1
    · obtain ⟨t0, ht0, hft⟩ := List.mem_map.mp h1
      by_cases h2 : t0.id == cid
      · rw [← hft] at hact
        simp [h2] at hact
      · rw [← hft] at hact ⊢
        simp only [h2, if_neg, ite_false] at hact ⊢
        have h3 : t0.id = cid := huniq t0 ht0 hact
        simp [h3] at h2
    · simp at h1
      simp [h1]
  · intro s hs
    rcases List.mem_append.mp hs with h1 | h1
    · obtain ⟨t0, ht0, hft⟩ := List.mem_map.mp h1
      rw [← hft, hidp]
      have := hle t0 ht0
      omega
    · simp at h1
      simp [h1]

theorem winv_newSegment (w : WAL) (hinv : WInv w) :
    WInv (walNewSegment w (w.currentId + 1)) :=
  seal_append_inv w.segments w.currentId (w.currentId + 1) 0 [] (by omega) hinv

theorem winv_write (w : WAL) (typ : Nat) (data : List Nat) (hinv : WInv w) :
    WInv (walWrite w typ data) := by
  unfold walWrite
  by_cases hrot : w.segmentSize ≤ (wCurrent w).offset
  · simp only [hrot, if_pos, ite_true]
    exact segsinv_map _ _ _
      (fun s => by
        by_cases h : s.id == (walNewSegment w (w.currentId + 1)).currentId <;> simp [h])
      (fun s => by
        by_cases h : s.id == (walNewSegment w (w.currentId + 1)).currentId <;> simp [h])
      (winv_newSegment w hinv)
  · simp only [hrot, if_neg, ite_false]
    exact segsinv_map _ _ _
      (fun s => by by_cases h : s.id == w.currentId <;> simp [h])
      (fun s => by by_cases h : s.id == w.currentId <;> simp [h]) hinv

theorem segsinv_mark (segs : List Segment) (cid : Nat)
    (hinv : SegsInv segs cid) :
    SegsInv (segs.map fun s =>
      if s.id < cid then { s with state := SegState.flushed } else s) cid := by
  obtain ⟨hnd, ⟨c, hc, hcid, hcact⟩, huniq, hle⟩ := hinv
  have hidp : ∀ s : Segment,
      ((if s.id < cid then { s with state := SegState.flushed } else s) : Segment).id
        = s.id := by
    intro s
    by_cases h : s.id < cid <;> simp [h]
  have hfc : (if c.id < cid then { c with state := SegState.flushed } else c) = c := by
    rw [hcid]
    simp
  refine ⟨?_, ⟨c, ?_, hcid, hcact⟩, ?_, ?_⟩
  · rw [ids_map_pres _ _ hidp]
    exact hnd
  · rw [← hfc]
    exact List.mem_map_of_mem _ hc
  · intro s hs hact
    obtain ⟨t, ht, hft⟩ := List.mem_map.mp hs
    by_cases h2 : t.id < cid
    · rw [← hft] at hact
      simp [h2] at hact
    · rw [← hft] at hact ⊢
      simp only [h2, if_neg, ite_false] at hact ⊢
      exact huniq t ht hact
  · intro s hs
    obtain ⟨t, ht, hft⟩ := List.mem_map.mp hs
    rw [← hft, hidp]
    exact hle t ht

theorem winv_checkpoint (w : WAL) (hinv : WInv w) : WInv (walCheckpoint w) :=
  segsinv_mark (walWrite w RecordCheckpoint []).segments
    (walWrite w RecordCheckpoint []).currentId
    (winv_write w RecordCheckpoint [] hinv)

theorem toDelete_sub_flushed (w : WAL) (x : Nat)
    (hx : x ∈ (List.insertionSort (· ≤ ·) (flushedIds w)).dropLast) :
    x ∈ flushedIds w := by
  have h1 : x ∈ List.insertionSort (· ≤ ·) (flushedIds w) :=
    (List.dropLast_sublist _).mem hx
  exact (List.perm_insertionSort _ _).mem_iff.mp h1

theorem winv_clean (w : WAL) (hinv : WInv w) : WInv (walClean w) := by
  obtain ⟨hnd, ⟨c, hc, hcid, hcact⟩, huniq, hle⟩ := hinv
  refine ⟨?_, ⟨c, ?_, hcid, hcact⟩, ?_, ?_⟩
  · apply hnd.sublist
    exact List.Sublist.map _ (List.filter_sublist w.segments)
  · refine List.mem_filter.mpr ⟨hc, ?_⟩
    simp only [Bool.not_eq_true']
    rw [← Bool.not_eq_true]
    intro hcontains
    have hmem : c.id ∈ (List.insertionSort (· ≤ ·) (flushedIds w)).dropLast := by
      simpa using hcontains
    have hflu : c.id ∈ flushedIds w := toDelete_sub_flushed w c.id hmem
    obtain ⟨t, htmem, htid⟩ := List.mem_map.mp hflu
    have ht2 := List.mem_filter.mp htmem
    have hteq : t = c := List.inj_on_of_nodup_map hnd ht2.1 hc htid
    have : t.state = SegState.flushed := by simpa using ht2.2
    rw [hteq, hcact] at this
    exact absurd this (by simp)
  · intro s hs
    exact huniq s (List.mem_of_mem_filter hs)
  · intro s hs
    exact hle s (List.mem_of_mem_filter hs)

end Protsdb
namespace Protsdb

def AccInv : List Segment × Option Nat → Prop
  | (segs, none) => segs = []
  | (segs, some cid) => SegsInv segs cid

theorem load_fold (l : List (Nat × Int)) :
    ∀ (acc : List Segment × Option Nat), AccInv acc →
    (l.map (·.1)).Pairwise (· < ·) →
    (∀ p ∈ l, ∀ cid, acc.2 = some cid → cid < p.1) →
    AccInv (l.foldl loadStep acc) := by
  induction l with
  | nil => intro acc h _ _; simpa using h
  | cons f t ih =>
    intro acc hacc hsort hgt
    have hsort2 : (t.map (·.1)).Pairwise (· < ·) := by
      simp only [List.map_cons, List.pairwise_cons] at hsort
      exact hsort.2
    have hhead : ∀ q ∈ t, f.1 < q.1 := by
      simp only [List.map_cons, List.pairwise_cons] at hsort
      intro q hq
      exact hsort.1 q.1 (List.mem_map_of_mem _ hq)
    obtain ⟨segs, ocid⟩ := acc
    cases ocid with
    | none =>
      have hsegs : segs = [] := hacc
      subst hsegs
      show AccInv (t.foldl loadStep (loadStep ([], none) f))
      apply ih
      · show AccInv ([⟨f.1, f.2, [], .active⟩], some f.1)
        refine ⟨by simp, ⟨⟨f.1, f.2, [], .active⟩, by simp, rfl, rfl⟩, ?_, ?_⟩
        · intro s hs _
          simp at hs
          simp [hs]
        · intro s hs
          simp at hs
          simp [hs]
      · exact hsort2
      · intro q hq cid hcid
        simp only [loadStep] at hcid
        have hc : cid = f.1 := by simpa using hcid.symm
        rw [hc]
        exact hhead q hq
    | some cid =>
      have hf : cid < f.1 := hgt f (by simp) cid rfl
      show AccInv (t.foldl loadStep (loadStep (segs, some cid) f))
      have hstep : loadStep (segs, some cid) f =
          ((segs.map fun s => if s.id == cid then { s with state := .sealed } else s)
            ++ [⟨f.1, f.2, [], .active⟩], some f.1) := by
        simp [loadStep, hf]
      rw [hstep]
      apply ih
      · exact seal_append_inv segs cid f.1 f.2 [] hf hacc
      · exact hsort2
      · intro q hq cid2 hcid2
        have hc : cid2 = f.1 := by simpa using hcid2.symm
        rw [hc]
        exact hhead q hq

theorem winv_new (loaded : List (Nat × Int)) (size : Int)
    (hsorted : (loaded.map (·.1)).Pairwise (· < ·)) :
    WInv (walNew loaded size) := by
  have hfold := load_fold loaded ([], none) rfl hsorted (by simp)
  unfold walNew
  cases hres : loaded.foldl loadStep ([], none) with
  | mk segs ocid =>
    rw [hres] at hfold
    cases ocid with
    | none =>
      refine ⟨by simp, ⟨⟨0, 0, [], .active⟩, by simp, rfl, rfl⟩, ?_, ?_⟩
      · intro s hs _
        simp at hs
        simp [hs]
      · intro s hs
        simp at hs
        simp [hs]
    | some cid =>
      exact hfold

theorem walReach_inv (w : WAL) (hw : WalReach w) : WInv w := by
  induction hw with
  | init loaded size hs => exact winv_new loaded size hs
  | step w op hw ih =>
    cases op with
    | write typ data => exact winv_write w typ data ih
    | checkpoint => exact winv_checkpoint w ih
    | clean => exact winv_clean w ih

def NoReact (w w' : WAL) : Prop :=
  ∀ s ∈ w.segments, s.state ≠ SegState.active →
  ∀ s' ∈ w'.segments, s'.id = s.id → s'.state ≠ SegState.active

theorem nr_write (w : WAL) (typ : Nat) (data : List Nat) (hinv : WInv w) :
    NoReact w (walWrite w typ data) := by
  obtain ⟨hnd, ⟨c, hc, hcid, hcact⟩, huniq, hle⟩ := hinv
  intro s hs hnact s' hs' hid
  by_cases hrot : w.segmentSize ≤ (wCurrent w).offset
  · have hseg : (walWrite w typ data).segments =
        ((w.segments.map fun t : Segment => if t.id == w.currentId then
          { t with state := SegState.sealed } else t)
          ++ [(⟨w.currentId + 1, 0, [], SegState.active⟩ : Segment)]).map
          (fun t : Segment => if t.id == w.currentId + 1 then { t with offset := t.offset + ((frame typ data).length : Int), data := t.data ++ frame typ data } else t) := by
      simp [walWrite, hrot, walNewSegment, List.map_append, List.map_map]
    rw [hseg] at hs'
    obtain ⟨u, hu, hus⟩ := List.mem_map.mp hs'
    rcases List.mem_append.mp hu with h1 | h1
    · obtain ⟨t0, ht0, hft⟩ := List.mem_map.mp h1
      have hidchain : t0.id = s.id := by
        have h2 : u.id = t0.id := by
          rw [← hft]
          by_cases h : t0.id == w.currentId <;> simp [h]
        have h3 : s'.id = u.id := by
          rw [← hus]
          by_cases h : u.id == w.currentId + 1 <;> simp [h]
        omega
      have hts : t0 = s := List.inj_on_of_nodup_map hnd ht0 hs hidchain
      have hstate : s'.state = u.state := by
        rw [← hus]
        by_cases h : u.id == w.currentId + 1 <;> simp [h]
      rw [hstate, ← hft]
      by_cases h : t0.id == w.currentId
      · simp [h]
      · simp only [h, if_neg, ite_false]
        rw [hts]
        exact hnact
    · simp only [List.mem_singleton] at h1
      have hbig : s'.id = w.currentId + 1 := by
        rw [← hus, h1]
        simp
      have := hle s hs
      omega
  · have hseg : (walWrite w typ data).segments =
        w.segments.map (fun t : Segment => if t.id == w.currentId then { t with offset := t.offset + ((frame typ data).length : Int), data := t.data ++ frame typ data } else t) := by
      simp [walWrite, hrot]
    rw [hseg] at hs'
    obtain ⟨t0, ht0, hft⟩ := List.mem_map.mp hs'
    have h2 : s'.id = t0.id := by
      rw [← hft]
      by_cases h : t0.id == w.currentId <;> simp [h]
    have hts : t0 = s := List.inj_on_of_nodup_map hnd ht0 hs (by omega)
    have hstate : s'.state = t0.state := by
      rw [← hft]
      by_cases h : t0.id == w.currentId <;> simp [h]
    rw [hstate, hts]
    exact hnact

theorem nr_checkpoint (w : WAL) (hinv : WInv w) : NoReact w (walCheckpoint w) := by
  intro s hs hnact s' hs' hid
  have hwr := nr_write w RecordCheckpoint [] hinv
  have hseg : (walCheckpoint w).segments =
      (walWrite w RecordCheckpoint []).segments.map
        (fun t => if t.id < (walWrite w RecordCheckpoint []).currentId then
          { t with state := SegState.flushed } else t) := rfl
  rw [hseg] at hs'
  obtain ⟨t0, ht0, hft⟩ := List.mem_map.mp hs'
  have h2 : s'.id = t0.id := by
    rw [← hft]
    by_cases h : t0.id < (walWrite w RecordCheckpoint []).currentId <;> simp [h]
  have ht0na : t0.state ≠ SegState.active := hwr s hs hnact t0 ht0 (by omega)
  rw [← hft]
  by_cases h : t0.id < (walWrite w RecordCheckpoint []).currentId
  · simp [h]
  · simp only [h, if_neg, ite_false]
    exact ht0na

theorem nr_clean (w : WAL) (hinv : WInv w) : NoReact w (walClean w) := by
  intro s hs hnact s' hs' hid
  have hmem : s' ∈ w.segments := List.mem_of_mem_filter hs'
  have hts : s' = s := List.inj_on_of_nodup_map hinv.1 hmem hs hid
  rw [hts]
  exact hnact

theorem filter_eq_singleton (L : List Segment) (p : Segment → Bool) (c : Segment)
    (hnd : L.Nodup) (hc : c ∈ L) (hpc : p c = true)
    (huniq : ∀ x ∈ L, p x = true → x = c) : L.filter p = [c] := by
  induction L with
  | nil => cases hc
  | cons a t ih =>
    have hndt : t.Nodup := (List.nodup_cons.mp hnd).2
    have hat : a ∉ t := (List.nodup_cons.mp hnd).1
    rcases List.mem_cons.mp hc with rfl | hct
    · rw [List.filter_cons, if_pos (by simp [hpc])]
      have hnil : t.filter p = [] := by
        rw [List.filter_eq_nil_iff]
        intro x hx hpx
        have := huniq x (List.mem_cons_of_mem _ hx) hpx
        rw [this] at hx
        exact hat hx
      rw [hnil]
    · have hpa : p a = false := by
        by_contra h
        have h2 : p a = true := by simpa using h
        have := huniq a (List.mem_cons_self _ _) h2
        rw [this] at hat
        exact hat hct
      rw [List.filter_cons, if_neg (by simp [hpa])]
      exact ih hndt hct (fun x hx hpx => huniq x (List.mem_cons_of_mem _ hx) hpx)

/-- C9: in every WAL state reachable from startup (a directory scan over
ascending distinct segment ids, or a fresh directory) by any sequence of
`write`, `Checkpoint` and `Clean` operations, exactly one segment in the
table is in the active state; it is the current segment and carries the
highest id.  Moreover no operation ever makes a sealed or flushed segment
active again. -/
theorem c9_single_active_segment (w : WAL) (hw : WalReach w) :
    ((w.segments.filter fun s => s.state == SegState.active).length = 1 ∧
     (∃ c ∈ w.segments, c.id = w.currentId ∧ c.state = SegState.active) ∧
     (∀ s ∈ w.segments, s.state = SegState.active →
       s.id = w.currentId ∧ ∀ t ∈ w.segments, t.id ≤ s.id)) ∧
    (∀ op : WalOp, ∀ s ∈ w.segments, s.state ≠ SegState.active →
      ∀ s' ∈ (applyOp w op).segments, s'.id = s.id → s'.state ≠ SegState.active) := by
  have hinv := walReach_inv w hw
  obtain ⟨hnd, ⟨c, hc, hcid, hcact⟩, huniq, hle⟩ := hinv
  refine ⟨⟨?_, ⟨c, hc, hcid, hcact⟩, ?_⟩, ?_⟩
  · have hfeq := filter_eq_singleton w.segments
      (fun s => s.state == SegState.active) c (List.Nodup.of_map _ hnd) hc
      (by simp [hcact])
      (by
        intro x hx hpx
        have hxact : x.state = SegState.active := by simpa using hpx
        have hxid : x.id = w.currentId := huniq x hx hxact
        exact List.inj_on_of_nodup_map hnd hx hc (by rw [hxid, hcid]))
    rw [hfeq]
    rfl
  · intro s hs hact
    refine ⟨huniq s hs hact, ?_⟩
    intro t ht
    rw [huniq s hs hact]
    exact hle t ht
  · intro op
    cases op with
    | write typ data => exact nr_write w typ data (walReach_inv w hw)
    | checkpoint => exact nr_checkpoint w (walReach_inv w hw)
    | clean => exact nr_clean w (walReach_inv w hw)

end Protsdb

namespace Protsdb

/-- C9 witness: the invariant and the non-reactivation property instantiated
on the freshly created WAL. -/
theorem c9_single_active_segment_witness :
    (((walNew [] 10).segments.filter fun s => s.state == SegState.active).length = 1 ∧
     (∃ c ∈ (walNew [] 10).segments, c.id = (walNew [] 10).currentId ∧
       c.state = SegState.active) ∧
     (∀ s ∈ (walNew [] 10).segments, s.state = SegState.active →
       s.id = (walNew [] 10).currentId ∧
       ∀ t ∈ (walNew [] 10).segments, t.id ≤ s.id)) ∧
    (∀ op : WalOp, ∀ s ∈ (walNew [] 10).segments, s.state ≠ SegState.active →
      ∀ s' ∈ (applyOp (walNew [] 10) op).segments, s'.id = s.id →
      s'.state ≠ SegState.active) :=
  c9_single_active_segment (walNew [] 10) (WalReach.init [] 10 (by simp))

end Protsdb
namespace Protsdb

inductive HeadReach : Head → Prop
  | init (cs : Int) : HeadReach (hNew cs)
  | append (h : Head) (l : Labels) (s : Sample) :
      HeadReach h → HeadReach (hAppend h l s)
  | getOrCreate (h : Head) (l : Labels) :
      HeadReach h → HeadReach (hGetOrCreate h l).2
  | getOrCreateE (h : Head) (l : Labels) (b : Bool) :
      HeadReach h → HeadReach (hGetOrCreateE h l b).2

def HSeriesInv (L : List (Nat × MemSeries)) (lastRef : Nat) : Prop :=
  (∀ p ∈ L, p.2.ref = p.1 ∧ 1 ≤ p.1 ∧ p.1 ≤ lastRef) ∧
  (L.map (·.1)).Nodup ∧
  (∀ r : Nat, 1 ≤ r → r ≤ lastRef → ((L.find? fun p => p.1 == r)).isSome)

def HInv (h : Head) : Prop := HSeriesInv h.series h.lastRef

theorem find?_map_keyfix (L : List (Nat × MemSeries))
    (f : Nat × MemSeries → Nat × MemSeries)
    (hf : ∀ p, (f p).1 = p.1) (r : Nat) :
    (L.map f).find? (fun p => p.1 == r) = (L.find? (fun p => p.1 == r)).map f := by
  induction L with
  | nil => rfl
  | cons a t ih =>
    by_cases h : (a.1 == r) = true
    · have h2 : ((f a).1 == r) = true := by rw [hf]; exact h
      simp [h, h2]
    · have h2 : ¬ ((f a).1 == r) = true := by rw [hf]; exact h
      simp [h, h2, ih]

theorem hsinv_map_updf (L : List (Nat × MemSeries)) (lastRef sref : Nat)
    (s2 : MemSeries) (hs2 : s2.ref = sref) (hinv : HSeriesInv L lastRef) :
    HSeriesInv (L.map fun p => if p.2.ref == sref then (p.1, s2) else p) lastRef := by
  obtain ⟨hkey, hnd, hdom⟩ := hinv
  have hf : ∀ p : Nat × MemSeries,
      ((if p.2.ref == sref then (p.1, s2) else p) : Nat × MemSeries).1 = p.1 := by
    intro p
    by_cases h : (p.2.ref == sref) = true <;> simp [h]
  refine ⟨?_, ?_, ?_⟩
  · intro p hp
    obtain ⟨q, hq, hfq⟩ := List.mem_map.mp hp
    by_cases h : (q.2.ref == sref) = true
    · rw [← hfq]
      simp only [h, if_pos, ite_true]
      have h2 : q.2.ref = sref := by simpa using h
      refine ⟨?_, (hkey q hq).2.1, (hkey q hq).2.2⟩
      rw [hs2, ← h2]
      exact (hkey q hq).1
    · rw [← hfq]
      simp only [h, if_neg, ite_false]
      exact hkey q hq
  · have : ((L.map fun p => if p.2.ref == sref then (p.1, s2) else p).map (·.1))
        = L.map (·.1) := by
      rw [List.map_map]
      exact List.map_congr_left (fun p _ => hf p)
    rw [this]
    exact hnd
  · intro r h1 h2
    rw [find?_map_keyfix _ _ hf]
    have := hdom r h1 h2
    cases he : L.find? fun p => p.1 == r with
    | none => rw [he] at this; simp at this
    | some p => simp

theorem hsinv_insert (L : List (Nat × MemSeries)) (lastRef : Nat) (l : Labels)
    (hinv : HSeriesInv L lastRef) :
    HSeriesInv (L ++ [(lastRef + 1, ⟨lastRef + 1, l, ⟨0, 0, []⟩, []⟩)])
      (lastRef + 1) := by
  obtain ⟨hkey, hnd, hdom⟩ := hinv
  refine ⟨?_, ?_, ?_⟩
  · intro p hp
    rcases List.mem_append.mp hp with h1 | h1
    · have := hkey p h1
      exact ⟨this.1, this.2.1, by omega⟩
    · simp at h1
      rw [h1]
      simp
  · rw [List.map_append]
    simp only [List.map_cons, List.map_nil]
    rw [List.nodup_append]
    refine ⟨hnd, by simp, ?_⟩
    intro a ha
    simp only [List.mem_singleton]
    obtain ⟨p, hp, hpa⟩ := List.mem_map.mp ha
    intro heq
    have := (hkey p hp).2.2
    omega
  · intro r h1 h2
    rw [List.find?_append]
    by_cases h3 : r ≤ lastRef
    · have := hdom r h1 h3
      cases he : L.find? fun p => p.1 == r with
      | none => rw [he] at this; simp at this
      | some p => simp
    · have hr : r = lastRef + 1 := by omega
      cases he : L.find? fun p => p.1 == r with
      | none =>
        rw [hr]
        simp [List.find?]
      | some p =>
        have hmem := List.mem_of_find?_eq_some he
        have hpr : p.1 = r := by
          have := List.find?_some he
          simpa using this
        have := (hkey p hmem).2.2
        omega

end Protsdb
namespace Protsdb

def updatedSeries (cs : Int) (s : MemSeries) (smp : Sample) : MemSeries :=
  let s1 := if cs ≤ (s.chunk.samples.length : Int) then
      { s with
        chunk := ⟨smp.timestamp, smp.timestamp, []⟩
        prevChunks := s.prevChunks ++ [s.chunk] }
    else s
  { s1 with chunk :=
    { s1.chunk with maxTime := smp.timestamp, samples := s1.chunk.samples ++ [smp] } }

theorem updatedSeries_ref (cs : Int) (s : MemSeries) (smp : Sample) :
    (updatedSeries cs s smp).ref = s.ref := by
  unfold updatedSeries
  by_cases h : cs ≤ (s.chunk.samples.length : Int) <;> simp [h]

theorem updatedSeries_lset (cs : Int) (s : MemSeries) (smp : Sample) :
    (updatedSeries cs s smp).lset = s.lset := by
  unfold updatedSeries
  by_cases h : cs ≤ (s.chunk.samples.length : Int) <;> simp [h]

theorem hAppend_found (h : Head) (l : Labels) (smp : Sample) (q : Nat × MemSeries)
    (e : h.series.find? (fun p => labelsEqual p.2.lset l) = some q) :
    (hAppend h l smp).series = h.series.map
      (fun p => if p.2.ref == q.2.ref then
        (p.1, updatedSeries h.chunkSize q.2 smp) else p) ∧
    (hAppend h l smp).lastRef = h.lastRef := by
  constructor <;> simp [hAppend, hGetOrCreate, e, updatedSeries]

theorem hAppend_new (h : Head) (l : Labels) (smp : Sample)
    (e : h.series.find? (fun p => labelsEqual p.2.lset l) = none) :
    (hAppend h l smp).series =
      (h.series ++ [(h.lastRef + 1, (⟨h.lastRef + 1, l, ⟨0, 0, []⟩, []⟩ : MemSeries))]).map
      (fun p : Nat × MemSeries => if p.2.ref == h.lastRef + 1 then
        (p.1, updatedSeries h.chunkSize (⟨h.lastRef + 1, l, ⟨0, 0, []⟩, []⟩ : MemSeries) smp) else p) ∧
    (hAppend h l smp).lastRef = h.lastRef + 1 := by
  constructor
  · by_cases hc : h.chunkSize ≤ (0 : Int) <;>
      simp [hAppend, hGetOrCreate, e, updatedSeries, hc]
  · simp [hAppend, hGetOrCreate, e]

theorem hGetOrCreate_found (h : Head) (l : Labels) (q : Nat × MemSeries)
    (e : h.series.find? (fun p => labelsEqual p.2.lset l) = some q) :
    (hGetOrCreate h l).2 = h := by
  simp [hGetOrCreate, e]

theorem hGetOrCreate_new (h : Head) (l : Labels)
    (e : h.series.find? (fun p => labelsEqual p.2.lset l) = none) :
    (hGetOrCreate h l).2.series =
      h.series ++ [(h.lastRef + 1, ⟨h.lastRef + 1, l, ⟨0, 0, []⟩, []⟩)] ∧
    (hGetOrCreate h l).2.lastRef = h.lastRef + 1 := by
  constructor <;> simp [hGetOrCreate, e]

theorem hGetOrCreateE_found (h : Head) (l : Labels) (b : Bool) (q : Nat × MemSeries)
    (e : h.series.find? (fun p => labelsEqual p.2.lset l) = some q) :
    (hGetOrCreateE h l b).2 = h := by
  simp [hGetOrCreateE, e]

theorem hGetOrCreateE_new (h : Head) (l : Labels) (b : Bool)
    (e : h.series.find? (fun p => labelsEqual p.2.lset l) = none) :
    (hGetOrCreateE h l b).2.series =
      h.series ++ [(h.lastRef + 1, ⟨h.lastRef + 1, l, ⟨0, 0, []⟩, []⟩)] ∧
    (hGetOrCreateE h l b).2.lastRef = h.lastRef + 1 := by
  cases b <;> exact ⟨by simp [hGetOrCreateE, e], by simp [hGetOrCreateE, e]⟩

theorem hinv_append (h : Head) (l : Labels) (smp : Sample) (hinv : HInv h) :
    HInv (hAppend h l smp) := by
  cases e : h.series.find? (fun p => labelsEqual p.2.lset l) with
  | some q =>
    obtain ⟨h1, h2⟩ := hAppend_found h l smp q e
    show HSeriesInv (hAppend h l smp).series (hAppend h l smp).lastRef
    rw [h1, h2]
    exact hsinv_map_updf _ _ _ _ (updatedSeries_ref _ _ _) hinv
  | none =>
    obtain ⟨h1, h2⟩ := hAppend_new h l smp e
    show HSeriesInv (hAppend h l smp).series (hAppend h l smp).lastRef
    rw [h1, h2]
    exact hsinv_map_updf _ _ _ _ (updatedSeries_ref _ _ _) (hsinv_insert _ _ _ hinv)

theorem hinv_getOrCreate (h : Head) (l : Labels) (hinv : HInv h) :
    HInv (hGetOrCreate h l).2 := by
  cases e : h.series.find? (fun p => labelsEqual p.2.lset l) with
  | some q =>
    rw [hGetOrCreate_found h l q e]
    exact hinv
  | none =>
    obtain ⟨h1, h2⟩ := hGetOrCreate_new h l e
    show HSeriesInv (hGetOrCreate h l).2.series (hGetOrCreate h l).2.lastRef
    rw [h1, h2]
    exact hsinv_insert _ _ _ hinv

theorem hinv_getOrCreateE (h : Head) (l : Labels) (b : Bool) (hinv : HInv h) :
    HInv (hGetOrCreateE h l b).2 := by
  cases e : h.series.find? (fun p => labelsEqual p.2.lset l) with
  | some q =>
    rw [hGetOrCreateE_found h l b q e]
    exact hinv
  | none =>
    obtain ⟨h1, h2⟩ := hGetOrCreateE_new h l b e
    show HSeriesInv (hGetOrCreateE h l b).2.series (hGetOrCreateE h l b).2.lastRef
    rw [h1, h2]
    exact hsinv_insert _ _ _ hinv

theorem hinv_new' (cs : Int) : HInv (hNew cs) := by
  refine ⟨by simp [hNew], by simp [hNew], ?_⟩
  intro r h1 h2
  have : (hNew cs).lastRef = 0 := by simp [hNew]
  omega

theorem headReach_inv (h : Head) (hr : HeadReach h) : HInv h := by
  induction hr with
  | init cs => exact hinv_new' cs
  | append h l s hr ih => exact hinv_append h l s ih
  | getOrCreate h l hr ih => exact hinv_getOrCreate h l ih
  | getOrCreateE h l b hr ih => exact hinv_getOrCreateE h l b ih

end Protsdb
namespace Protsdb

/-- C10: in every reachable head state the series map is key-consistent and
append-only: a reference found in the map stores a series whose `ref` field
equals the key and whose bounds lie in `1..lastRef`; `Series r` is `nil`
exactly when `r` was never assigned (`r = 0` or `r > lastRef`); and no
operation (`Append`, `getOrCreate`, including a failed WAL write inside
`getOrCreate`) removes or re-keys an entry — a later lookup returns the very
same series identity (same reference and label set; `Append` only grows its
chunk). -/
theorem c10_series_map_append_only (h : Head) (hr : HeadReach h) :
    (∀ r s0, hSeries h r = some s0 → s0.ref = r ∧ 1 ≤ r ∧ r ≤ h.lastRef) ∧
    (∀ r, hSeries h r = none ↔ (r = 0 ∨ h.lastRef < r)) ∧
    (∀ r s0, hSeries h r = some s0 → ∀ l smp,
      ∃ s1, hSeries (hAppend h l smp) r = some s1 ∧
        s1.ref = s0.ref ∧ s1.lset = s0.lset) ∧
    (∀ r s0, hSeries h r = some s0 → ∀ l,
      hSeries (hGetOrCreate h l).2 r = some s0) ∧
    (∀ r s0, hSeries h r = some s0 → ∀ l b,
      hSeries (hGetOrCreateE h l b).2 r = some s0) := by
  obtain ⟨hkey, hnd, hdom⟩ := headReach_inv h hr
  have hsome : ∀ r s0, hSeries h r = some s0 →
      ∃ p, h.series.find? (fun x => x.1 == r) = some p ∧ p.2 = s0 ∧
        p.1 = r ∧ p ∈ h.series := by
    intro r s0 hs
    unfold hSeries at hs
    obtain ⟨p, hp, hps⟩ := Option.map_eq_some'.mp hs
    refine ⟨p, hp, hps, ?_, List.mem_of_find?_eq_some hp⟩
    have := List.find?_some hp
    simpa using this
  have part1 : ∀ r s0, hSeries h r = some s0 →
      s0.ref = r ∧ 1 ≤ r ∧ r ≤ h.lastRef := by
    intro r s0 hs
    obtain ⟨p, hp, hps, hpr, hpm⟩ := hsome r s0 hs
    have hk := hkey p hpm
    refine ⟨?_, by omega, by omega⟩
    rw [← hps, hk.1, hpr]
  refine ⟨part1, ?_, ?_, ?_, ?_⟩
  · intro r
    constructor
    · intro hn
      by_contra hcon
      rw [not_or, not_lt] at hcon
      have hge : 1 ≤ r := by omega
      have hd := hdom r hge hcon.2
      unfold hSeries at hn
      rw [Option.map_eq_none'] at hn
      rw [hn] at hd
      simp at hd
    · intro hor
      cases hs : hSeries h r with
      | none => rfl
      | some s0 =>
        have := part1 r s0 hs
        omega
  · intro r s0 hs l smp
    obtain ⟨p, hp, hps, hpr, hpm⟩ := hsome r s0 hs
    cases e : h.series.find? (fun x => labelsEqual x.2.lset l) with
    | some q =>
      obtain ⟨hser, _⟩ := hAppend_found h l smp q e
      have hf : ∀ x : Nat × MemSeries,
          ((if x.2.ref == q.2.ref then (x.1, updatedSeries h.chunkSize q.2 smp)
            else x) : Nat × MemSeries).1 = x.1 := by
        intro x
        by_cases hx : (x.2.ref == q.2.ref) = true <;> simp [hx]
      have hlook : hSeries (hAppend h l smp) r =
          some ((if p.2.ref == q.2.ref then
            (p.1, updatedSeries h.chunkSize q.2 smp) else p).2) := by
        unfold hSeries
        rw [hser, find?_map_keyfix _ _ hf, hp]
        rfl
      by_cases hc : (p.2.ref == q.2.ref) = true
      · have hq2 : q.2.ref = q.1 := (hkey q (List.mem_of_find?_eq_some e)).1
        have hpq : p.2.ref = q.2.ref := by simpa using hc
        have hp1 : p.2.ref = p.1 := (hkey p hpm).1
        have hpeq : p = q :=
          List.inj_on_of_nodup_map hnd hpm (List.mem_of_find?_eq_some e) (by omega)
        refine ⟨updatedSeries h.chunkSize q.2 smp, ?_, ?_, ?_⟩
        · rw [hlook]
          simp [hc]
        · rw [updatedSeries_ref, ← hps, hpeq]
        · rw [updatedSeries_lset, ← hps, hpeq]
      · refine ⟨p.2, ?_, by rw [hps], by rw [hps]⟩
        rw [hlook]
        simp [hc]
    | none =>
      obtain ⟨hser, _⟩ := hAppend_new h l smp e
      have hf : ∀ x : Nat × MemSeries,
          ((if x.2.ref == h.lastRef + 1 then
            (x.1, updatedSeries h.chunkSize
              (⟨h.lastRef + 1, l, ⟨0, 0, []⟩, []⟩ : MemSeries) smp)
            else x) : Nat × MemSeries).1 = x.1 := by
        intro x
        by_cases hx : (x.2.ref == h.lastRef + 1) = true <;> simp [hx]
      have hp1 : p.2.ref = p.1 := (hkey p hpm).1
      have hple : p.1 ≤ h.lastRef := (hkey p hpm).2.2
      have hcond : ¬ (p.2.ref == h.lastRef + 1) = true := by
        simp only [beq_iff_eq]
        omega
      have hlook : hSeries (hAppend h l smp) r = some p.2 := by
        unfold hSeries
        rw [hser, find?_map_keyfix _ _ hf, List.find?_append, hp]
        have hcond2 : ¬ (p.2.ref = h.lastRef + 1) := by omega
        simp [hcond, hcond2]
      exact ⟨p.2, hlook, by rw [hps], by rw [hps]⟩
  · intro r s0 hs l
    obtain ⟨p, hp, hps, hpr, hpm⟩ := hsome r s0 hs
    cases e : h.series.find? (fun x => labelsEqual x.2.lset l) with
    | some q =>
      rw [hGetOrCreate_found h l q e]
      exact hs
    | none =>
      obtain ⟨hser, _⟩ := hGetOrCreate_new h l e
      unfold hSeries
      rw [hser, List.find?_append, hp]
      simp [hps]
  · intro r s0 hs l b
    obtain ⟨p, hp, hps, hpr, hpm⟩ := hsome r s0 hs
    cases e : h.series.find? (fun x => labelsEqual x.2.lset l) with
    | some q =>
      rw [hGetOrCreateE_found h l b q e]
      exact hs
    | none =>
      obtain ⟨hser, _⟩ := hGetOrCreateE_new h l b e
      unfold hSeries
      rw [hser, List.find?_append, hp]
      simp [hps]

end Protsdb

namespace Protsdb

/-- C10 witness: the map facts instantiated on the head that created one
series for the scenario label set. -/
theorem c10_series_map_append_only_witness :
    (∀ r s0, hSeries (hGetOrCreate (hNew 5) scenLabels).2 r = some s0 →
      s0.ref = r ∧ 1 ≤ r ∧ r ≤ (hGetOrCreate (hNew 5) scenLabels).2.lastRef) ∧
    (∀ r, hSeries (hGetOrCreate (hNew 5) scenLabels).2 r = none ↔
      (r = 0 ∨ (hGetOrCreate (hNew 5) scenLabels).2.lastRef < r)) ∧
    (∀ r s0, hSeries (hGetOrCreate (hNew 5) scenLabels).2 r = some s0 → ∀ l smp,
      ∃ s1, hSeries (hAppend (hGetOrCreate (hNew 5) scenLabels).2 l smp) r = some s1 ∧
        s1.ref = s0.ref ∧ s1.lset = s0.lset) ∧
    (∀ r s0, hSeries (hGetOrCreate (hNew 5) scenLabels).2 r = some s0 → ∀ l,
      hSeries (hGetOrCreate (hGetOrCreate (hNew 5) scenLabels).2 l).2 r = some s0) ∧
    (∀ r s0, hSeries (hGetOrCreate (hNew 5) scenLabels).2 r = some s0 → ∀ l b,
      hSeries (hGetOrCreateE (hGetOrCreate (hNew 5) scenLabels).2 l b).2 r = some s0) :=
  c10_series_map_append_only (hGetOrCreate (hNew 5) scenLabels).2
    (HeadReach.getOrCreate (hNew 5) scenLabels (HeadReach.init 5))

end Protsdb
